import Mathlib

/-!
Verification development for the IFU-cube DQ-plane routines of
`jwst/cube_build/src/cube_dq_utils.c`.

The C code is shallowly embedded: C doubles/floats become `ℚ`, C ints
become `ℤ`, the parallel input arrays `coord1/coord2/wave/sliceno`
become a `List Point`, output buffers become total functions `ℤ → ℤ`
updated pointwise, and the external geometry primitive
`sh_find_overlap` becomes an oracle parameter.  Fallible allocation is
modelled by an oracle `alloc : ℕ → Bool` giving the outcome of each
successive allocation call.

Rational arithmetic is written with the wrappers `qadd`, `qsub`,
`qmul`, `qdiv`, `qabs`, which are proved equal to the field operations
of `ℚ` (`qadd_eq` &c.); the wrappers are definitionally reducible, so
concrete runs of the embedded code can be checked by `decide`.
-/

namespace CubeDq

/-- A point-cloud sample: the entries at one index of the parallel
arrays `coord1`, `coord2`, `wave`, `sliceno`.  `sliceno` holds integral
values (the C code casts it with `(int)`), so it is modelled as `ℤ`. -/
structure Point where
  c1 : ℚ
  c2 : ℚ
  wave : ℚ
  slice : ℤ
deriving DecidableEq

/-- Pointwise update of an integer buffer, modelling `buf[i] = v`. -/
def setBuf (b : ℤ → ℤ) (i v : ℤ) : ℤ → ℤ :=
  fun j => if j = i then v else b j

/-- Addition on `ℚ`, in a kernel-reducible form (see `qadd_eq`). -/
def qadd (a b : ℚ) : ℚ :=
  Rat.divInt (a.num * (b.den : ℤ) + b.num * (a.den : ℤ)) ((a.den : ℤ) * (b.den : ℤ))

/-- Subtraction on `ℚ`, in a kernel-reducible form (see `qsub_eq`). -/
def qsub (a b : ℚ) : ℚ :=
  Rat.divInt (a.num * (b.den : ℤ) - b.num * (a.den : ℤ)) ((a.den : ℤ) * (b.den : ℤ))

/-- Multiplication on `ℚ`, in a kernel-reducible form (see `qmul_eq`). -/
def qmul (a b : ℚ) : ℚ :=
  Rat.divInt (a.num * b.num) ((a.den : ℤ) * (b.den : ℤ))

/-- Division on `ℚ` (with `qdiv a 0 = 0`), in a kernel-reducible form
(see `qdiv_eq`). -/
def qdiv (a b : ℚ) : ℚ :=
  Rat.divInt (a.num * (b.den : ℤ)) ((a.den : ℤ) * b.num)

/-- C `fabs` on `ℚ`. -/
def qabs (q : ℚ) : ℚ :=
  if q < 0 then -q else q

theorem qadd_eq (a b : ℚ) : qadd a b = a + b := by
  unfold qadd
  rw [Rat.divInt_eq_div]
  push_cast
  conv_rhs => rw [← Rat.num_div_den a, ← Rat.num_div_den b]
  have ha : ((a.den : ℚ)) ≠ 0 := by positivity
  have hb : ((b.den : ℚ)) ≠ 0 := by positivity
  field_simp

theorem qsub_eq (a b : ℚ) : qsub a b = a - b := by
  unfold qsub
  rw [Rat.divInt_eq_div]
  push_cast
  conv_rhs => rw [← Rat.num_div_den a, ← Rat.num_div_den b]
  have ha : ((a.den : ℚ)) ≠ 0 := by positivity
  have hb : ((b.den : ℚ)) ≠ 0 := by positivity
  field_simp
  ring

theorem qmul_eq (a b : ℚ) : qmul a b = a * b := by
  unfold qmul
  rw [Rat.divInt_eq_div]
  push_cast
  conv_rhs => rw [← Rat.num_div_den a, ← Rat.num_div_den b]
  have ha : ((a.den : ℚ)) ≠ 0 := by positivity
  have hb : ((b.den : ℚ)) ≠ 0 := by positivity
  field_simp

theorem qdiv_eq (a b : ℚ) : qdiv a b = a / b := by
  unfold qdiv
  rcases eq_or_ne b 0 with rfl | hb
  · simp [Rat.divInt_eq_div]
  · rw [Rat.divInt_eq_div]
    push_cast
    conv_rhs => rw [← Rat.num_div_den a, ← Rat.num_div_den b]
    have ha : ((a.den : ℚ)) ≠ 0 := by positivity
    have hb2 : ((b.den : ℚ)) ≠ 0 := by positivity
    have hbn : ((b.num : ℚ)) ≠ 0 := by
      exact_mod_cast Rat.num_ne_zero.mpr hb
    field_simp

theorem qabs_eq (q : ℚ) : qabs q = |q| := by
  unfold qabs
  rcases le_or_lt 0 q with h | h
  · rw [abs_of_nonneg h, if_neg (not_lt.mpr h)]
  · rw [abs_of_neg h, if_pos h]

/-- C cast of a real value to `int`: truncation toward zero.  For a
rational `num/den` (with `den > 0` and the fraction reduced) this is
the T-division of the numerator by the denominator. -/
def qtrunc (q : ℚ) : ℤ :=
  q.num.tdiv (q.den : ℤ)

/-- C `abs` on ints. -/
def iabs (i : ℤ) : ℤ :=
  if i < 0 then -i else i

/-- Embedding of `overlap_slice_with_spaxels` (cube_dq_utils.c lines
473-578), the Bresenham-style line rasterizer.  The sequential `let`
shadowing reproduces the C assignment sequences exactly, including the
self-overwriting "swap" blocks at lines 529-534 (`x1 = y1; y1 = x1; ...`)
and lines 538-544 (`x1 = x2; x2 = x1; ...`), which read the freshly
overwritten variable instead of the old value. -/
def overlapSliceWithSpaxels (op : ℤ) (cdelt1 cdelt2 : ℚ) (naxis1 naxis2 : ℕ)
    (xstart ystart ximin etamin ximax etamax : ℚ) (buf : ℤ → ℤ) : ℤ → ℤ :=
  let x1 := qtrunc (qdiv (qsub ximin xstart) cdelt1)
  let y1 := qtrunc (qdiv (qsub etamin ystart) cdelt2)
  let x2 := qtrunc (qdiv (qsub ximax xstart) cdelt1)
  let y2 := qtrunc (qdiv (qsub etamax ystart) cdelt2)
  let dx := x2 - x1
  let dy := y2 - y1
  let isSteep := iabs dy > iabs dx
  let x1 := if isSteep then y1 else x1
  let y1 := if isSteep then x1 else y1
  let x2 := if isSteep then y2 else x2
  let y2 := if isSteep then x2 else y2
  let doSwap := x1 > x2
  let x1 := if doSwap then x2 else x1
  let x2 := if doSwap then x1 else x2
  let y1 := if doSwap then y2 else y1
  let y2 := if doSwap then y1 else y2
  let dx := x2 - x1
  let dy := y2 - y1
  let error0 := qtrunc (qdiv (dx : ℚ) 2)
  let ystep : ℤ := if y1 < y2 then 1 else -1
  let n := (x2 + 1 - x1).toNat
  let res := (List.range n).foldl
    (fun (s : ℤ × ℤ × (ℤ → ℤ)) k =>
      let x := x1 + (k : ℤ)
      let y := s.1
      let err := s.2.1
      let b := s.2.2
      let yuse := if isSteep then x else y
      let xuse := if isSteep then y else x
      let b := setBuf b (yuse * (naxis1 : ℤ) + xuse) op
      let err := err - iabs dy
      if err < 0 then (y + ystep, err + dx, b) else (y, err, b))
    (y1, error0, buf)
  res.2.2

/-- Claim C2, code bug.  The claim says that in the steep case the axes and
endpoints are swapped so the walk marks one grid cell per integer step
of the dominant (vertical) axis between the two endpoints'
dominant-axis indices.  The C "swap" blocks overwrite a variable before
reading it (`x1 = y1; y1 = x1;` and `x1 = x2; x2 = x1; y1 = y2; y2 = y1;`),
so for endpoints converting to grid indices (0,5) and (0,0) — steep,
with descending dominant index — both broken swaps collapse the segment
to the single point (0,0): only flattened index 0 is marked, while the
claim requires the six cells at flattened indices 0,10,20,30,40,50
(grid (0,0)..(0,5) with naxis1 = 10). -/
theorem overlap_slice_steep_descending_marks_one_cell :
    overlapSliceWithSpaxels 2 1 1 10 10 0 0 0 5 0 0 (fun _ => 0) 0 = 2 ∧
    overlapSliceWithSpaxels 2 1 1 10 10 0 0 0 5 0 0 (fun _ => 0) 10 = 0 ∧
    overlapSliceWithSpaxels 2 1 1 10 10 0 0 0 5 0 0 (fun _ => 0) 20 = 0 ∧
    overlapSliceWithSpaxels 2 1 1 10 10 0 0 0 5 0 0 (fun _ => 0) 30 = 0 ∧
    overlapSliceWithSpaxels 2 1 1 10 10 0 0 0 5 0 0 (fun _ => 0) 40 = 0 ∧
    overlapSliceWithSpaxels 2 1 1 10 10 0 0 0 5 0 0 (fun _ => 0) 50 = 0 := by
  refine ⟨?_, ?_, ?_, ?_, ?_, ?_⟩ <;> decide

/-- Claim C9, confirmed.  Rasterizing a horizontal segment whose endpoints
convert to grid indices (0,0) and (5,0) on a 10×10 grid sets exactly
the six flattened entries 0..5 to `overlap_partial` (here 2) and leaves
every other entry of the scratch buffer unchanged (here 0). -/
theorem overlap_slice_horizontal_marks_exactly_six :
    ∀ n : ℤ, overlapSliceWithSpaxels 2 1 1 10 10 0 0 0 0 5 0 (fun _ => 0) n
      = if 0 ≤ n ∧ n < 6 then 2 else 0 := by
  have h : overlapSliceWithSpaxels 2 1 1 10 10 0 0 0 0 5 0 (fun _ => 0)
      = setBuf (setBuf (setBuf (setBuf (setBuf (setBuf
          (fun _ => 0) 0 2) 1 2) 2 2) 3 2) 4 2) 5 2 := by
    rfl
  intro n
  rw [h]
  simp only [setBuf]
  split_ifs <;> omega

/-- Closed instance of the C9 theorem at flattened index 3. -/
theorem overlap_slice_horizontal_marks_exactly_six_witness :
    overlapSliceWithSpaxels 2 1 1 10 10 0 0 0 0 5 0 (fun _ => 0) 3 = 2 :=
  (overlap_slice_horizontal_marks_exactly_six 3).trans (by decide)


/-- One min/max tracker pair of `corner_wave_plane_miri`: the running
minimum and maximum of one coordinate over one extreme slice, together
with the point indices achieving them (`-1` = not yet found), cf. the
locals `c1_start_min`/`ic1_start_min` &c. at cube_dq_utils.c lines
108-128. -/
structure Track where
  minv : ℚ
  maxv : ℚ
  imin : ℤ
  imax : ℤ
deriving DecidableEq

/-- Initial tracker: sentinel values 10000 and -10000, indices -1. -/
def trackInit : Track :=
  ⟨10000, -10000, -1, -1⟩

/-- One tracker update, cf. cube_dq_utils.c lines 151-172: the running
min (resp. max) and its index change exactly when the new value is
strictly below (resp. above) the running value. -/
def Track.update (t : Track) (i : ℕ) (v : ℚ) : Track :=
  let t1 := if v < t.minv then { t with minv := v, imin := (i : ℤ) } else t
  if v > t1.maxv then { t1 with maxv := v, imax := (i : ℤ) } else t1

theorem Track.update_minv (t : Track) (i : ℕ) (v : ℚ) :
    (t.update i v).minv = if v < t.minv then v else t.minv := by
  unfold Track.update
  by_cases h1 : v < t.minv <;> by_cases h2 : v > t.maxv <;> simp [h1, h2]

theorem Track.update_imin (t : Track) (i : ℕ) (v : ℚ) :
    (t.update i v).imin = if v < t.minv then (i : ℤ) else t.imin := by
  unfold Track.update
  by_cases h1 : v < t.minv <;> by_cases h2 : v > t.maxv <;> simp [h1, h2]

theorem Track.update_maxv (t : Track) (i : ℕ) (v : ℚ) :
    (t.update i v).maxv = if v > t.maxv then v else t.maxv := by
  unfold Track.update
  by_cases h1 : v < t.minv <;> by_cases h2 : v > t.maxv <;> simp [h1, h2]

theorem Track.update_imax (t : Track) (i : ℕ) (v : ℚ) :
    (t.update i v).imax = if v > t.maxv then (i : ℤ) else t.imax := by
  unfold Track.update
  by_cases h1 : v < t.minv <;> by_cases h2 : v > t.maxv <;> simp [h1, h2]

/-- The scan state of `corner_wave_plane_miri`: coord1/coord2 trackers
for the start slice and for the end slice. -/
structure MiriState where
  sc1 : Track
  sc2 : Track
  ec1 : Track
  ec2 : Track
deriving DecidableEq

def miriInitState : MiriState :=
  ⟨trackInit, trackInit, trackInit, trackInit⟩

/-- A point qualifies for slice `s`: its wavelength is within the
region-of-interest half-width of the plane and it belongs to slice `s`
(cube_dq_utils.c lines 144-147 and 177). -/
def QualPt (zcw roiw : ℚ) (s : ℤ) (p : Point) : Prop :=
  qabs (qsub zcw p.wave) < roiw ∧ p.slice = s

instance (zcw roiw : ℚ) (s : ℤ) (p : Point) : Decidable (QualPt zcw roiw s p) := by
  unfold QualPt
  infer_instance

/-- The loop body of `corner_wave_plane_miri` for the point with index
`i` (cube_dq_utils.c lines 135-201).  The extra `p.c1 ≠ -1` conjunct is
the C guard `if (c11 != -1)` (resp. `if (c12 != -1)`). -/
def miriStep (zcw roiw : ℚ) (sr er : ℤ) (st : MiriState) (i : ℕ) (p : Point) : MiriState :=
  if p.slice = sr ∨ p.slice = er then
    let st1 :=
      if QualPt zcw roiw sr p ∧ p.c1 ≠ -1 then
        { st with sc1 := st.sc1.update i p.c1, sc2 := st.sc2.update i p.c2 }
      else st
    if QualPt zcw roiw er p ∧ p.c1 ≠ -1 then
      { st1 with ec1 := st1.ec1.update i p.c1, ec2 := st1.ec2.update i p.c2 }
    else st1
  else st

/-- The point-cloud scan of `corner_wave_plane_miri`, carrying the
running point index. -/
def miriScanAux (zcw roiw : ℚ) (sr er : ℤ) : ℕ → List Point → MiriState → MiriState
  | _, [], st => st
  | i, p :: ps, st => miriScanAux zcw roiw sr er (i + 1) ps (miriStep zcw roiw sr er st i p)

def miriScan (zcw roiw : ℚ) (sr er : ℤ) (pts : List Point) : MiriState :=
  miriScanAux zcw roiw sr er 0 pts miriInitState

/-- Reading `(coord1[i], coord2[i])` at a stored tracker index. -/
def coordAt (pts : List Point) (i : ℤ) : ℚ × ℚ :=
  ((pts.getD i.toNat ⟨0, 0, 0, 0⟩).c1, (pts.getD i.toNat ⟨0, 0, 0, 0⟩).c2)

/-- Embedding of `corner_wave_plane_miri` (cube_dq_utils.c lines
53-249).  `none` models the status-1 return at lines 206-208 (the four
corner out-parameters are not written); `some` carries the four corners
written at lines 220-244. -/
def cornerWavePlaneMiri (w : ℕ) (sr er : ℤ) (roiw : ℚ) (zc : ℕ → ℚ) (pts : List Point) :
    Option ((ℚ × ℚ) × (ℚ × ℚ) × (ℚ × ℚ) × (ℚ × ℚ)) :=
  let st := miriScan (zc w) roiw sr er pts
  if st.sc1.imin = -1 ∨ st.sc1.imax = -1 ∨ st.ec1.imin = -1 ∨ st.ec1.imax = -1 then
    none
  else
    let lc1 := qsub st.sc1.maxv st.sc1.minv
    let lc2 := qsub st.sc2.maxv st.sc2.minv
    if lc1 < lc2 then
      some (coordAt pts st.sc2.imin, coordAt pts st.sc2.imax,
            coordAt pts st.ec2.imax, coordAt pts st.ec2.imin)
    else
      some (coordAt pts st.sc1.imin, coordAt pts st.sc1.imax,
            coordAt pts st.ec1.imax, coordAt pts st.ec1.imin)

/-- Splitting one step off a `List.drop`. -/
theorem drop_eq_cons {α : Type} {pts ps : List α} {n : ℕ} {p : α}
    (h : pts.drop n = p :: ps) : pts[n]? = some p ∧ pts.drop (n + 1) = ps := by
  constructor
  · have h0 : (pts.drop n)[0]? = some p := by rw [h]; simp
    rw [List.getElem?_drop] at h0
    simpa using h0
  · have h2 : (pts.drop n).drop 1 = pts.drop (n + 1) := by rw [List.drop_drop]
    rw [← h2, h]
    rfl

/-- Invariant of a tracker's min side after the first `n` points have
been processed, for qualifying predicate `Q` and tracked coordinate
`f`: the running min never exceeds the sentinel; while the index is
unset, the running min is the sentinel and every processed qualifying
value is at least the sentinel; once set, the index points at a
processed qualifying point realising the running min, which is then
strictly below the sentinel; and the running min bounds every processed
qualifying value from below. -/
def TrackMinInv (pts : List Point) (Q : Point → Prop) (f : Point → ℚ) (n : ℕ) (t : Track) : Prop :=
  t.minv ≤ 10000 ∧
  (t.imin = -1 → t.minv = 10000 ∧ ∀ j, j < n → ∀ p, pts[j]? = some p → Q p → 10000 ≤ f p) ∧
  (t.imin ≠ -1 → ∃ j, j < n ∧ ∃ q, pts[j]? = some q ∧ Q q ∧ (j : ℤ) = t.imin ∧
    f q = t.minv ∧ t.minv < 10000) ∧
  (∀ j, j < n → ∀ p, pts[j]? = some p → Q p → t.minv ≤ f p)

/-- Mirror image of `TrackMinInv` for the max side. -/
def TrackMaxInv (pts : List Point) (Q : Point → Prop) (f : Point → ℚ) (n : ℕ) (t : Track) : Prop :=
  -10000 ≤ t.maxv ∧
  (t.imax = -1 → t.maxv = -10000 ∧ ∀ j, j < n → ∀ p, pts[j]? = some p → Q p → f p ≤ -10000) ∧
  (t.imax ≠ -1 → ∃ j, j < n ∧ ∃ q, pts[j]? = some q ∧ Q q ∧ (j : ℤ) = t.imax ∧
    f q = t.maxv ∧ -10000 < t.maxv) ∧
  (∀ j, j < n → ∀ p, pts[j]? = some p → Q p → f p ≤ t.maxv)

def TrackInv (pts : List Point) (Q : Point → Prop) (f : Point → ℚ) (n : ℕ) (t : Track) : Prop :=
  TrackMinInv pts Q f n t ∧ TrackMaxInv pts Q f n t

theorem trackInv_init (pts : List Point) (Q : Point → Prop) (f : Point → ℚ) :
    TrackInv pts Q f 0 trackInit := by
  unfold TrackInv TrackMinInv TrackMaxInv trackInit
  refine ⟨⟨by norm_num, ?_, ?_, ?_⟩, by norm_num, ?_, ?_, ?_⟩ <;>
    first
      | (intro h; exact absurd rfl h)
      | (intro h; exact ⟨rfl, fun j hj => absurd hj (Nat.not_lt_zero j)⟩)
      | (intro j hj; exact absurd hj (Nat.not_lt_zero j))

/-- Extending a per-processed-point property across a step that does
not qualify. -/
theorem forall_lt_succ_of {pts : List Point} {Q : Point → Prop} {n : ℕ} {p : Point}
    (hp : pts[n]? = some p) (hnq : ¬ Q p) (C : Point → Prop)
    (hall : ∀ j, j < n → ∀ q, pts[j]? = some q → Q q → C q) :
    ∀ j, j < n + 1 → ∀ q, pts[j]? = some q → Q q → C q := by
  intro j hj q hq hQ
  rcases Nat.lt_succ_iff_lt_or_eq.mp hj with hj2 | rfl
  · exact hall j hj2 q hq hQ
  · rw [hp] at hq
    obtain rfl := Option.some.inj hq
    exact absurd hQ hnq

theorem TrackInv.skip {pts : List Point} {Q : Point → Prop} {f : Point → ℚ} {n : ℕ}
    {t : Track} {p : Point} (h : TrackInv pts Q f n t) (hp : pts[n]? = some p)
    (hnq : ¬ Q p) : TrackInv pts Q f (n + 1) t := by
  obtain ⟨⟨a1, a2, a3, a4⟩, b1, b2, b3, b4⟩ := h
  refine ⟨⟨a1, ?_, ?_, ?_⟩, b1, ?_, ?_, ?_⟩
  · intro him
    exact ⟨(a2 him).1, forall_lt_succ_of hp hnq _ (a2 him).2⟩
  · intro him
    obtain ⟨j, hj, rest⟩ := a3 him
    exact ⟨j, Nat.lt_succ_of_lt hj, rest⟩
  · exact forall_lt_succ_of hp hnq _ a4
  · intro him
    exact ⟨(b2 him).1, forall_lt_succ_of hp hnq _ (b2 him).2⟩
  · intro him
    obtain ⟨j, hj, rest⟩ := b3 him
    exact ⟨j, Nat.lt_succ_of_lt hj, rest⟩
  · exact forall_lt_succ_of hp hnq _ b4

theorem TrackInv.update {pts : List Point} {Q : Point → Prop} {f : Point → ℚ} {n : ℕ}
    {t : Track} {p : Point} (h : TrackInv pts Q f n t) (hp : pts[n]? = some p)
    (hq : Q p) : TrackInv pts Q f (n + 1) (t.update n (f p)) := by
  obtain ⟨⟨a1, a2, a3, a4⟩, b1, b2, b3, b4⟩ := h
  constructor
  · unfold TrackMinInv
    simp only [Track.update_minv, Track.update_imin]
    by_cases hlt : f p < t.minv
    · simp only [if_pos hlt]
      refine ⟨le_of_lt (lt_of_lt_of_le hlt a1), ?_, ?_, ?_⟩
      · intro him
        exfalso
        omega
      · intro _
        exact ⟨n, Nat.lt_succ_self n, p, hp, hq, rfl, rfl, lt_of_lt_of_le hlt a1⟩
      · intro j hj q hql hQ
        rcases Nat.lt_succ_iff_lt_or_eq.mp hj with hj2 | rfl
        · exact le_of_lt (lt_of_lt_of_le hlt (a4 j hj2 q hql hQ))
        · rw [hp] at hql
          obtain rfl := Option.some.inj hql
          exact le_refl _
    · simp only [if_neg hlt]
      refine ⟨a1, ?_, ?_, ?_⟩
      · intro him
        refine ⟨(a2 him).1, ?_⟩
        intro j hj q hql hQ
        rcases Nat.lt_succ_iff_lt_or_eq.mp hj with hj2 | rfl
        · exact (a2 him).2 j hj2 q hql hQ
        · rw [hp] at hql
          obtain rfl := Option.some.inj hql
          rw [← (a2 him).1]
          exact not_lt.mp hlt
      · intro him
        obtain ⟨j, hj, rest⟩ := a3 him
        exact ⟨j, Nat.lt_succ_of_lt hj, rest⟩
      · intro j hj q hql hQ
        rcases Nat.lt_succ_iff_lt_or_eq.mp hj with hj2 | rfl
        · exact a4 j hj2 q hql hQ
        · rw [hp] at hql
          obtain rfl := Option.some.inj hql
          exact not_lt.mp hlt
  · unfold TrackMaxInv
    simp only [Track.update_maxv, Track.update_imax]
    by_cases hgt : f p > t.maxv
    · simp only [if_pos hgt]
      refine ⟨le_of_lt (lt_of_le_of_lt b1 hgt), ?_, ?_, ?_⟩
      · intro him
        exfalso
        omega
      · intro _
        exact ⟨n, Nat.lt_succ_self n, p, hp, hq, rfl, rfl, lt_of_le_of_lt b1 hgt⟩
      · intro j hj q hql hQ
        rcases Nat.lt_succ_iff_lt_or_eq.mp hj with hj2 | rfl
        · exact le_of_lt (lt_of_le_of_lt (b4 j hj2 q hql hQ) hgt)
        · rw [hp] at hql
          obtain rfl := Option.some.inj hql
          exact le_refl _
    · simp only [if_neg hgt]
      refine ⟨b1, ?_, ?_, ?_⟩
      · intro him
        refine ⟨(b2 him).1, ?_⟩
        intro j hj q hql hQ
        rcases Nat.lt_succ_iff_lt_or_eq.mp hj with hj2 | rfl
        · exact (b2 him).2 j hj2 q hql hQ
        · rw [hp] at hql
          obtain rfl := Option.some.inj hql
          rw [← (b2 him).1]
          exact not_lt.mp hgt
      · intro him
        obtain ⟨j, hj, rest⟩ := b3 him
        exact ⟨j, Nat.lt_succ_of_lt hj, rest⟩
      · intro j hj q hql hQ
        rcases Nat.lt_succ_iff_lt_or_eq.mp hj with hj2 | rfl
        · exact b4 j hj2 q hql hQ
        · rw [hp] at hql
          obtain rfl := Option.some.inj hql
          exact not_lt.mp hgt

/-- The qualifying predicate actually used by the tracker updates in
`corner_wave_plane_miri`: the point is on the slice, within the
wavelength region of interest, and passes the `c11 != -1` guard. -/
def MiriQual (zcw roiw : ℚ) (s : ℤ) (p : Point) : Prop :=
  QualPt zcw roiw s p ∧ p.c1 ≠ -1

instance (zcw roiw : ℚ) (s : ℤ) (p : Point) : Decidable (MiriQual zcw roiw s p) := by
  unfold MiriQual
  infer_instance

def MiriInv (zcw roiw : ℚ) (sr er : ℤ) (pts : List Point) (n : ℕ) (st : MiriState) : Prop :=
  TrackInv pts (MiriQual zcw roiw sr) (fun p => p.c1) n st.sc1 ∧
  TrackInv pts (MiriQual zcw roiw sr) (fun p => p.c2) n st.sc2 ∧
  TrackInv pts (MiriQual zcw roiw er) (fun p => p.c1) n st.ec1 ∧
  TrackInv pts (MiriQual zcw roiw er) (fun p => p.c2) n st.ec2

theorem miriStep_inv {zcw roiw : ℚ} {sr er : ℤ} {pts : List Point} {n : ℕ}
    {st : MiriState} {p : Point} (hp : pts[n]? = some p)
    (h : MiriInv zcw roiw sr er pts n st) :
    MiriInv zcw roiw sr er pts (n + 1) (miriStep zcw roiw sr er st n p) := by
  unfold MiriInv at h ⊢
  obtain ⟨hs1, hs2, he1, he2⟩ := h
  unfold miriStep
  by_cases hsl : p.slice = sr ∨ p.slice = er
  · simp only [if_pos hsl]
    by_cases hq1 : QualPt zcw roiw sr p ∧ p.c1 ≠ -1
    · by_cases hq2 : QualPt zcw roiw er p ∧ p.c1 ≠ -1
      · simp only [if_pos hq1, if_pos hq2]
        exact ⟨hs1.update hp hq1, hs2.update hp hq1, he1.update hp hq2, he2.update hp hq2⟩
      · simp only [if_pos hq1, if_neg hq2]
        exact ⟨hs1.update hp hq1, hs2.update hp hq1, he1.skip hp hq2, he2.skip hp hq2⟩
    · by_cases hq2 : QualPt zcw roiw er p ∧ p.c1 ≠ -1
      · simp only [if_neg hq1, if_pos hq2]
        exact ⟨hs1.skip hp hq1, hs2.skip hp hq1, he1.update hp hq2, he2.update hp hq2⟩
      · simp only [if_neg hq1, if_neg hq2]
        exact ⟨hs1.skip hp hq1, hs2.skip hp hq1, he1.skip hp hq2, he2.skip hp hq2⟩
  · simp only [if_neg hsl]
    have hns : ¬ MiriQual zcw roiw sr p := fun hc => hsl (Or.inl hc.1.2)
    have hne : ¬ MiriQual zcw roiw er p := fun hc => hsl (Or.inr hc.1.2)
    exact ⟨hs1.skip hp hns, hs2.skip hp hns, he1.skip hp hne, he2.skip hp hne⟩

theorem miriScanAux_inv {zcw roiw : ℚ} {sr er : ℤ} {pts : List Point} :
    ∀ (ps : List Point) (n : ℕ) (st : MiriState),
      pts.drop n = ps → MiriInv zcw roiw sr er pts n st →
      MiriInv zcw roiw sr er pts (n + ps.length) (miriScanAux zcw roiw sr er n ps st)
  | [], n, st, _, h => by simpa using h
  | p :: ps, n, st, hd, h => by
    obtain ⟨hp, hd2⟩ := drop_eq_cons hd
    have ih := miriScanAux_inv ps (n + 1) (miriStep zcw roiw sr er st n p) hd2
      (miriStep_inv hp h)
    simp only [miriScanAux, List.length_cons]
    have harith : n + (ps.length + 1) = (n + 1) + ps.length := by omega
    rw [harith]
    exact ih

theorem miriScan_inv (zcw roiw : ℚ) (sr er : ℤ) (pts : List Point) :
    MiriInv zcw roiw sr er pts pts.length (miriScan zcw roiw sr er pts) := by
  have h0 : MiriInv zcw roiw sr er pts 0 miriInitState :=
    ⟨trackInv_init _ _ _, trackInv_init _ _ _, trackInv_init _ _ _, trackInv_init _ _ _⟩
  have := @miriScanAux_inv zcw roiw sr er pts pts 0 miriInitState rfl h0
  simpa [miriScan] using this

theorem exists_getElem?_of_mem {α : Type} {l : List α} {a : α} (h : a ∈ l) :
    ∃ j : ℕ, l[j]? = some a := by
  obtain ⟨n, hn⟩ := List.get_of_mem h
  exact ⟨n, by simp [← hn]⟩

/-- While every qualifying value lies strictly below the sentinel, the
min-tracker index is unset exactly when no point qualifies. -/
theorem trackMin_unset_iff {pts : List Point} {Q : Point → Prop} {f : Point → ℚ}
    {t : Track} (inv : TrackMinInv pts Q f pts.length t)
    (hval : ∀ p ∈ pts, Q p → f p < 10000) :
    t.imin = -1 ↔ ¬ ∃ p ∈ pts, Q p := by
  constructor
  · rintro him ⟨p, hmem, hQ⟩
    obtain ⟨j, hj⟩ := exists_getElem?_of_mem hmem
    have hlen : j < pts.length := (List.getElem?_eq_some_iff.mp hj).1
    have h10 := (inv.2.1 him).2 j hlen p hj hQ
    exact absurd h10 (not_le.mpr (hval p hmem hQ))
  · intro hno
    by_contra him
    obtain ⟨j, _, q, hq, hQ, _⟩ := inv.2.2.1 him
    exact hno ⟨q, List.getElem?_mem hq, hQ⟩

theorem trackMax_unset_iff {pts : List Point} {Q : Point → Prop} {f : Point → ℚ}
    {t : Track} (inv : TrackMaxInv pts Q f pts.length t)
    (hval : ∀ p ∈ pts, Q p → -10000 < f p) :
    t.imax = -1 ↔ ¬ ∃ p ∈ pts, Q p := by
  constructor
  · rintro him ⟨p, hmem, hQ⟩
    obtain ⟨j, hj⟩ := exists_getElem?_of_mem hmem
    have hlen : j < pts.length := (List.getElem?_eq_some_iff.mp hj).1
    have h10 := (inv.2.1 him).2 j hlen p hj hQ
    exact absurd h10 (not_le.mpr (hval p hmem hQ))
  · intro hno
    by_contra him
    obtain ⟨j, _, q, hq, hQ, _⟩ := inv.2.2.1 him
    exact hno ⟨q, List.getElem?_mem hq, hQ⟩

/-- Value `a` is the minimum of coordinate `f` over the points
qualifying for slice `s` (in the sense of the claim: within the
wavelength region of interest, on the slice). -/
def IsMinOn (zcw roiw : ℚ) (s : ℤ) (pts : List Point) (f : Point → ℚ) (a : ℚ) : Prop :=
  (∃ p ∈ pts, QualPt zcw roiw s p ∧ f p = a) ∧
  ∀ p ∈ pts, QualPt zcw roiw s p → a ≤ f p

def IsMaxOn (zcw roiw : ℚ) (s : ℤ) (pts : List Point) (f : Point → ℚ) (b : ℚ) : Prop :=
  (∃ p ∈ pts, QualPt zcw roiw s p ∧ f p = b) ∧
  ∀ p ∈ pts, QualPt zcw roiw s p → f p ≤ b

/-- Corner `k` is the coordinate pair of a qualifying point of slice
`s` minimising coordinate `f` over that slice's qualifying points. -/
def CornerAtMin (zcw roiw : ℚ) (s : ℤ) (pts : List Point) (f : Point → ℚ) (k : ℚ × ℚ) : Prop :=
  ∃ p ∈ pts, QualPt zcw roiw s p ∧ k = (p.c1, p.c2) ∧
    ∀ q ∈ pts, QualPt zcw roiw s q → f p ≤ f q

def CornerAtMax (zcw roiw : ℚ) (s : ℤ) (pts : List Point) (f : Point → ℚ) (k : ℚ × ℚ) : Prop :=
  ∃ p ∈ pts, QualPt zcw roiw s p ∧ k = (p.c1, p.c2) ∧
    ∀ q ∈ pts, QualPt zcw roiw s q → f q ≤ f p

instance (zcw roiw : ℚ) (s : ℤ) (pts : List Point) (f : Point → ℚ) (a : ℚ) :
    Decidable (IsMinOn zcw roiw s pts f a) := by
  unfold IsMinOn
  infer_instance

instance (zcw roiw : ℚ) (s : ℤ) (pts : List Point) (f : Point → ℚ) (b : ℚ) :
    Decidable (IsMaxOn zcw roiw s pts f b) := by
  unfold IsMaxOn
  infer_instance

instance (zcw roiw : ℚ) (s : ℤ) (pts : List Point) (f : Point → ℚ) (k : ℚ × ℚ) :
    Decidable (CornerAtMin zcw roiw s pts f k) := by
  unfold CornerAtMin
  infer_instance

instance (zcw roiw : ℚ) (s : ℤ) (pts : List Point) (f : Point → ℚ) (k : ℚ × ℚ) :
    Decidable (CornerAtMax zcw roiw s pts f k) := by
  unfold CornerAtMax
  infer_instance

theorem coordAt_of_getElem? {pts : List Point} {j : ℕ} {q : Point} {i : ℤ}
    (hji : (j : ℤ) = i) (hjq : pts[j]? = some q) : coordAt pts i = (q.c1, q.c2) := by
  rw [← hji]
  unfold coordAt
  have hg : pts.getD ((j : ℤ)).toNat ⟨0, 0, 0, 0⟩ = q := by
    have ht : ((j : ℤ)).toNat = j := by simp
    rw [ht, List.getD_eq_getElem?_getD, hjq]
    rfl
  rw [hg]

theorem isMinOn_of_inv {zcw roiw : ℚ} {s : ℤ} {pts : List Point} {f : Point → ℚ}
    {t : Track} (inv : TrackMinInv pts (MiriQual zcw roiw s) f pts.length t)
    (hc1 : ∀ p ∈ pts, QualPt zcw roiw s p → p.c1 ≠ -1) (him : t.imin ≠ -1) :
    IsMinOn zcw roiw s pts f t.minv := by
  obtain ⟨j, _, q, hjq, hQ, hji, hfq, _⟩ := inv.2.2.1 him
  constructor
  · exact ⟨q, List.getElem?_mem hjq, hQ.1, hfq⟩
  · intro p hmem hQ2
    obtain ⟨j2, hj2⟩ := exists_getElem?_of_mem hmem
    have hlen : j2 < pts.length := (List.getElem?_eq_some_iff.mp hj2).1
    exact inv.2.2.2 j2 hlen p hj2 ⟨hQ2, hc1 p hmem hQ2⟩

theorem isMaxOn_of_inv {zcw roiw : ℚ} {s : ℤ} {pts : List Point} {f : Point → ℚ}
    {t : Track} (inv : TrackMaxInv pts (MiriQual zcw roiw s) f pts.length t)
    (hc1 : ∀ p ∈ pts, QualPt zcw roiw s p → p.c1 ≠ -1) (him : t.imax ≠ -1) :
    IsMaxOn zcw roiw s pts f t.maxv := by
  obtain ⟨j, _, q, hjq, hQ, hji, hfq, _⟩ := inv.2.2.1 him
  constructor
  · exact ⟨q, List.getElem?_mem hjq, hQ.1, hfq⟩
  · intro p hmem hQ2
    obtain ⟨j2, hj2⟩ := exists_getElem?_of_mem hmem
    have hlen : j2 < pts.length := (List.getElem?_eq_some_iff.mp hj2).1
    exact inv.2.2.2 j2 hlen p hj2 ⟨hQ2, hc1 p hmem hQ2⟩

theorem cornerAtMin_of_inv {zcw roiw : ℚ} {s : ℤ} {pts : List Point} {f : Point → ℚ}
    {t : Track} (inv : TrackMinInv pts (MiriQual zcw roiw s) f pts.length t)
    (hc1 : ∀ p ∈ pts, QualPt zcw roiw s p → p.c1 ≠ -1) (him : t.imin ≠ -1) :
    CornerAtMin zcw roiw s pts f (coordAt pts t.imin) := by
  obtain ⟨j, _, q, hjq, hQ, hji, hfq, _⟩ := inv.2.2.1 him
  refine ⟨q, List.getElem?_mem hjq, hQ.1, coordAt_of_getElem? hji hjq, ?_⟩
  intro p hmem hQ2
  obtain ⟨j2, hj2⟩ := exists_getElem?_of_mem hmem
  have hlen : j2 < pts.length := (List.getElem?_eq_some_iff.mp hj2).1
  rw [hfq]
  exact inv.2.2.2 j2 hlen p hj2 ⟨hQ2, hc1 p hmem hQ2⟩

theorem cornerAtMax_of_inv {zcw roiw : ℚ} {s : ℤ} {pts : List Point} {f : Point → ℚ}
    {t : Track} (inv : TrackMaxInv pts (MiriQual zcw roiw s) f pts.length t)
    (hc1 : ∀ p ∈ pts, QualPt zcw roiw s p → p.c1 ≠ -1) (him : t.imax ≠ -1) :
    CornerAtMax zcw roiw s pts f (coordAt pts t.imax) := by
  obtain ⟨j, _, q, hjq, hQ, hji, hfq, _⟩ := inv.2.2.1 him
  refine ⟨q, List.getElem?_mem hjq, hQ.1, coordAt_of_getElem? hji hjq, ?_⟩
  intro p hmem hQ2
  obtain ⟨j2, hj2⟩ := exists_getElem?_of_mem hmem
  have hlen : j2 < pts.length := (List.getElem?_eq_some_iff.mp hj2).1
  rw [hfq]
  exact inv.2.2.2 j2 hlen p hj2 ⟨hQ2, hc1 p hmem hQ2⟩

theorem corner_none_iff_cond (w : ℕ) (sr er : ℤ) (roiw : ℚ) (zc : ℕ → ℚ)
    (pts : List Point) :
    cornerWavePlaneMiri w sr er roiw zc pts = none ↔
      ((miriScan (zc w) roiw sr er pts).sc1.imin = -1 ∨
       (miriScan (zc w) roiw sr er pts).sc1.imax = -1 ∨
       (miriScan (zc w) roiw sr er pts).ec1.imin = -1 ∨
       (miriScan (zc w) roiw sr er pts).ec1.imax = -1) := by
  simp only [cornerWavePlaneMiri]
  split_ifs with h1 h2 <;> simp [h1]

/-- Claim C4, counterexample.  The claim says a nonzero status is returned
iff one of the two extreme slices contributed no qualifying point.
Here both slices contribute a qualifying point (both with coord1 equal
to the sentinel 10000), yet the finder still fails, because the min
trackers only ever record values strictly below 10000. -/
theorem corner_wave_plane_fails_with_qualifying_points :
    (∃ p ∈ ([⟨10000, 0, 0, 1⟩, ⟨10000, 0, 0, 2⟩] : List Point), QualPt 0 1 1 p) ∧
    (∃ p ∈ ([⟨10000, 0, 0, 1⟩, ⟨10000, 0, 0, 2⟩] : List Point), QualPt 0 1 2 p) ∧
    cornerWavePlaneMiri 0 1 2 1 (fun _ => 0)
      [⟨10000, 0, 0, 1⟩, ⟨10000, 0, 0, 2⟩] = none := by
  refine ⟨by decide, by decide, by decide⟩

/-- Claim C4, amended.  Provided every qualifying point of the two extreme
slices has `coord1` different from the guard value -1 and strictly
inside the sentinel range (-10000, 10000), `corner_wave_plane_miri`
returns the nonzero status (modelled `none`, corners unwritten) iff at
least one of the two extreme slices contributed no qualifying point. -/
theorem corner_wave_plane_none_iff_no_qualifying (w : ℕ) (sr er : ℤ) (roiw : ℚ)
    (zc : ℕ → ℚ) (pts : List Point)
    (hr : ∀ p ∈ pts, QualPt (zc w) roiw sr p ∨ QualPt (zc w) roiw er p →
      p.c1 ≠ -1 ∧ -10000 < p.c1 ∧ p.c1 < 10000) :
    cornerWavePlaneMiri w sr er roiw zc pts = none ↔
      (¬ ∃ p ∈ pts, QualPt (zc w) roiw sr p) ∨
      ¬ ∃ p ∈ pts, QualPt (zc w) roiw er p := by
  have inv := miriScan_inv (zc w) roiw sr er pts
  have hsmin := trackMin_unset_iff inv.1.1
    (fun p hm hQ => (hr p hm (Or.inl hQ.1)).2.2)
  have hsmax := trackMax_unset_iff inv.1.2
    (fun p hm hQ => (hr p hm (Or.inl hQ.1)).2.1)
  have hemin := trackMin_unset_iff inv.2.2.1.1
    (fun p hm hQ => (hr p hm (Or.inr hQ.1)).2.2)
  have hemax := trackMax_unset_iff inv.2.2.1.2
    (fun p hm hQ => (hr p hm (Or.inr hQ.1)).2.1)
  have hqs : (∃ p ∈ pts, MiriQual (zc w) roiw sr p) ↔
      ∃ p ∈ pts, QualPt (zc w) roiw sr p := by
    constructor
    · rintro ⟨p, hm, hq⟩
      exact ⟨p, hm, hq.1⟩
    · rintro ⟨p, hm, hq⟩
      exact ⟨p, hm, hq, (hr p hm (Or.inl hq)).1⟩
  have hqe : (∃ p ∈ pts, MiriQual (zc w) roiw er p) ↔
      ∃ p ∈ pts, QualPt (zc w) roiw er p := by
    constructor
    · rintro ⟨p, hm, hq⟩
      exact ⟨p, hm, hq.1⟩
    · rintro ⟨p, hm, hq⟩
      exact ⟨p, hm, hq, (hr p hm (Or.inr hq)).1⟩
  rw [corner_none_iff_cond, hsmin, hsmax, hemin, hemax, hqs, hqe]
  constructor
  · rintro (h | h | h | h)
    · exact Or.inl h
    · exact Or.inl h
    · exact Or.inr h
    · exact Or.inr h
  · rintro (h | h)
    · exact Or.inl h
    · exact Or.inr (Or.inr (Or.inl h))

/-- Closed instance of the C4 amended theorem: a single start-slice
point and no end-slice point, so the finder fails. -/
theorem corner_wave_plane_none_iff_no_qualifying_witness :
    cornerWavePlaneMiri 0 1 2 1 (fun _ => 0) [⟨0, 0, 0, 1⟩] = none :=
  (corner_wave_plane_none_iff_no_qualifying 0 1 2 1 (fun _ => 0) [⟨0, 0, 0, 1⟩]
    (by decide)).mpr (Or.inr (by decide))

/-- Concrete point cloud for the C8 counterexample: the start slice
(slice 1) has a qualifying point with `coord1 = -1` that the scan
silently skips. -/
def ptsC8x : List Point :=
  [⟨-1, 0, 0, 1⟩, ⟨0, 0, 0, 1⟩, ⟨5, 0, 0, 2⟩]

/-- Claim C8, counterexample.  The claim says that when the finder succeeds,
corner 1 is the qualifying start-slice point achieving the long-axis
minimum.  Here the start slice's qualifying points have coord1 spans 1
(coord1 values -1 and 0) and coord2 span 0, so the claim's long axis is
coord1 and its corner 1 is (-1, 0); but the `c11 != -1` guard makes the
code skip the point with coord1 = -1, and the finder succeeds returning
corner 1 = (0, 0), which is not a coord1-minimising qualifying point. -/
theorem corner_wave_plane_corner1_not_min :
    QualPt 0 1 1 (⟨-1, 0, 0, 1⟩ : Point) ∧
    (⟨-1, 0, 0, 1⟩ : Point) ∈ ptsC8x ∧
    IsMinOn 0 1 1 ptsC8x (fun p => p.c1) (-1) ∧
    IsMaxOn 0 1 1 ptsC8x (fun p => p.c1) 0 ∧
    IsMinOn 0 1 1 ptsC8x (fun p => p.c2) 0 ∧
    IsMaxOn 0 1 1 ptsC8x (fun p => p.c2) 0 ∧
    ¬ CornerAtMin 0 1 1 ptsC8x (fun p => p.c1) (0, 0) ∧
    cornerWavePlaneMiri 0 1 2 1 (fun _ => 0) ptsC8x =
      some ((0, 0), (0, 0), (5, 0), (5, 0)) := by
  refine ⟨by decide, by decide, by decide, by decide, by decide, by decide, by decide,
    by decide⟩

/-- Claim C8, amended.  Provided every qualifying point of the two extreme
slices has `coord1 ≠ -1` and both coordinates strictly inside the
sentinel range (-10000, 10000): when the finder succeeds, the long axis
is the one with the larger span over the qualifying start-slice points
(ties resolved to coord1), and the corners are coordinate pairs of
qualifying points achieving, on the long axis, the start minimum
(corner 1), start maximum (corner 2), end maximum (corner 3) and end
minimum (corner 4). -/
theorem corner_wave_plane_corner_extrema (w : ℕ) (sr er : ℤ) (roiw : ℚ) (zc : ℕ → ℚ)
    (pts : List Point) (k1 k2 k3 k4 : ℚ × ℚ)
    (hr : ∀ p ∈ pts, QualPt (zc w) roiw sr p ∨ QualPt (zc w) roiw er p →
      p.c1 ≠ -1 ∧ -10000 < p.c1 ∧ p.c1 < 10000 ∧ -10000 < p.c2 ∧ p.c2 < 10000)
    (hres : cornerWavePlaneMiri w sr er roiw zc pts = some (k1, k2, k3, k4)) :
    ∃ a1 b1 a2 b2,
      IsMinOn (zc w) roiw sr pts (fun p => p.c1) a1 ∧
      IsMaxOn (zc w) roiw sr pts (fun p => p.c1) b1 ∧
      IsMinOn (zc w) roiw sr pts (fun p => p.c2) a2 ∧
      IsMaxOn (zc w) roiw sr pts (fun p => p.c2) b2 ∧
      (¬ (b1 - a1 < b2 - a2) →
        CornerAtMin (zc w) roiw sr pts (fun p => p.c1) k1 ∧
        CornerAtMax (zc w) roiw sr pts (fun p => p.c1) k2 ∧
        CornerAtMax (zc w) roiw er pts (fun p => p.c1) k3 ∧
        CornerAtMin (zc w) roiw er pts (fun p => p.c1) k4) ∧
      (b1 - a1 < b2 - a2 →
        CornerAtMin (zc w) roiw sr pts (fun p => p.c2) k1 ∧
        CornerAtMax (zc w) roiw sr pts (fun p => p.c2) k2 ∧
        CornerAtMax (zc w) roiw er pts (fun p => p.c2) k3 ∧
        CornerAtMin (zc w) roiw er pts (fun p => p.c2) k4) := by
  have inv := miriScan_inv (zc w) roiw sr er pts
  have hc1s : ∀ p ∈ pts, QualPt (zc w) roiw sr p → p.c1 ≠ -1 :=
    fun p hm hq => (hr p hm (Or.inl hq)).1
  have hc1e : ∀ p ∈ pts, QualPt (zc w) roiw er p → p.c1 ≠ -1 :=
    fun p hm hq => (hr p hm (Or.inr hq)).1
  simp only [cornerWavePlaneMiri] at hres
  set st := miriScan (zc w) roiw sr er pts with hst
  have hcond : ¬ (st.sc1.imin = -1 ∨ st.sc1.imax = -1 ∨ st.ec1.imin = -1 ∨
      st.ec1.imax = -1) := by
    intro hc
    rw [if_pos hc] at hres
    exact Option.noConfusion hres
  rw [if_neg hcond] at hres
  push_neg at hcond
  obtain ⟨h1, h2, h3, h4⟩ := hcond
  have hexs : ∃ p ∈ pts, MiriQual (zc w) roiw sr p := by
    obtain ⟨j, hj, q, hget, hQ, rest⟩ := inv.1.1.2.2.1 h1
    exact ⟨q, List.getElem?_mem hget, hQ⟩
  have hexe : ∃ p ∈ pts, MiriQual (zc w) roiw er p := by
    obtain ⟨j, hj, q, hget, hQ, rest⟩ := inv.2.2.1.1.2.2.1 h3
    exact ⟨q, List.getElem?_mem hget, hQ⟩
  have h2min : st.sc2.imin ≠ -1 := by
    intro heq
    exact (trackMin_unset_iff inv.2.1.1
      (fun p hm hQ => (hr p hm (Or.inl hQ.1)).2.2.2.2)).mp heq hexs
  have h2max : st.sc2.imax ≠ -1 := by
    intro heq
    exact (trackMax_unset_iff inv.2.1.2
      (fun p hm hQ => (hr p hm (Or.inl hQ.1)).2.2.2.1)).mp heq hexs
  have he2min : st.ec2.imin ≠ -1 := by
    intro heq
    exact (trackMin_unset_iff inv.2.2.2.1
      (fun p hm hQ => (hr p hm (Or.inr hQ.1)).2.2.2.2)).mp heq hexe
  have he2max : st.ec2.imax ≠ -1 := by
    intro heq
    exact (trackMax_unset_iff inv.2.2.2.2
      (fun p hm hQ => (hr p hm (Or.inr hQ.1)).2.2.2.1)).mp heq hexe
  refine ⟨st.sc1.minv, st.sc1.maxv, st.sc2.minv, st.sc2.maxv,
    isMinOn_of_inv inv.1.1 hc1s h1, isMaxOn_of_inv inv.1.2 hc1s h2,
    isMinOn_of_inv inv.2.1.1 hc1s h2min, isMaxOn_of_inv inv.2.1.2 hc1s h2max, ?_, ?_⟩
  · intro hno
    by_cases hlt : qsub st.sc1.maxv st.sc1.minv < qsub st.sc2.maxv st.sc2.minv
    · exfalso
      rw [qsub_eq, qsub_eq] at hlt
      exact hno hlt
    · rw [if_neg hlt] at hres
      obtain ⟨hk1, hk2, hk3, hk4⟩ : coordAt pts st.sc1.imin = k1 ∧
          coordAt pts st.sc1.imax = k2 ∧ coordAt pts st.ec1.imax = k3 ∧
          coordAt pts st.ec1.imin = k4 := by
        have hinj := Option.some.inj hres
        simpa [Prod.ext_iff] using hinj
      rw [← hk1, ← hk2, ← hk3, ← hk4]
      exact ⟨cornerAtMin_of_inv inv.1.1 hc1s h1, cornerAtMax_of_inv inv.1.2 hc1s h2,
        cornerAtMax_of_inv inv.2.2.1.2 hc1e h4, cornerAtMin_of_inv inv.2.2.1.1 hc1e h3⟩
  · intro hlt2
    have hlt : qsub st.sc1.maxv st.sc1.minv < qsub st.sc2.maxv st.sc2.minv := by
      rw [qsub_eq, qsub_eq]
      exact hlt2
    rw [if_pos hlt] at hres
    obtain ⟨hk1, hk2, hk3, hk4⟩ : coordAt pts st.sc2.imin = k1 ∧
        coordAt pts st.sc2.imax = k2 ∧ coordAt pts st.ec2.imax = k3 ∧
        coordAt pts st.ec2.imin = k4 := by
      have hinj := Option.some.inj hres
      simpa [Prod.ext_iff] using hinj
    rw [← hk1, ← hk2, ← hk3, ← hk4]
    exact ⟨cornerAtMin_of_inv inv.2.1.1 hc1s h2min, cornerAtMax_of_inv inv.2.1.2 hc1s h2max,
      cornerAtMax_of_inv inv.2.2.2.2 hc1e he2max, cornerAtMin_of_inv inv.2.2.2.1 hc1e he2min⟩

/-- Concrete point cloud for the C8 amended witness. -/
def ptsC8 : List Point :=
  [⟨0, 0, 0, 1⟩, ⟨3, 1, 0, 1⟩, ⟨1, 5, 0, 2⟩]

/-- Closed instance of the C8 amended theorem. -/
theorem corner_wave_plane_corner_extrema_witness :
    ∃ a1 b1 a2 b2,
      IsMinOn 0 1 1 ptsC8 (fun p => p.c1) a1 ∧
      IsMaxOn 0 1 1 ptsC8 (fun p => p.c1) b1 ∧
      IsMinOn 0 1 1 ptsC8 (fun p => p.c2) a2 ∧
      IsMaxOn 0 1 1 ptsC8 (fun p => p.c2) b2 ∧
      (¬ (b1 - a1 < b2 - a2) →
        CornerAtMin 0 1 1 ptsC8 (fun p => p.c1) (0, 0) ∧
        CornerAtMax 0 1 1 ptsC8 (fun p => p.c1) (3, 1) ∧
        CornerAtMax 0 1 2 ptsC8 (fun p => p.c1) (1, 5) ∧
        CornerAtMin 0 1 2 ptsC8 (fun p => p.c1) (1, 5)) ∧
      (b1 - a1 < b2 - a2 →
        CornerAtMin 0 1 1 ptsC8 (fun p => p.c2) (0, 0) ∧
        CornerAtMax 0 1 1 ptsC8 (fun p => p.c2) (3, 1) ∧
        CornerAtMax 0 1 2 ptsC8 (fun p => p.c2) (1, 5) ∧
        CornerAtMin 0 1 2 ptsC8 (fun p => p.c2) (1, 5)) :=
  corner_wave_plane_corner_extrema 0 1 2 1 (fun _ => 0) ptsC8 (0, 0) (3, 1) (1, 5) (1, 5)
    (by decide) (by decide)

/-- Concrete point cloud for the C10 counterexample: a qualifying
start-slice point with coord1 = 20000, far outside the sentinel
range. -/
def ptsC10 : List Point :=
  [⟨20000, 0, 0, 1⟩, ⟨0, 0, 0, 1⟩, ⟨1, 1, 0, 2⟩]

/-- Claim C10, counterexample.  The claim says both finders track minima and
maxima only for coordinate values strictly inside (-10000, 10000), and
that in `corner_wave_plane_miri` a qualifying point with such
coordinates is never recorded as a corner-defining extremum.  But the
max trackers accept any value strictly above -10000: here the
qualifying point with coord1 = 20000 is recorded as the start-slice
coord1 maximum (tracker index 0) and is returned as corner 2. -/
theorem out_of_range_point_recorded_as_extremum :
    QualPt 0 1 1 (⟨20000, 0, 0, 1⟩ : Point) ∧
    ¬ ((20000 : ℚ) < 10000) ∧
    ptsC10[0]? = some ⟨20000, 0, 0, 1⟩ ∧
    (miriScan 0 1 1 2 ptsC10).sc1.imax = 0 ∧
    cornerWavePlaneMiri 0 1 2 1 (fun _ => 0) ptsC10 =
      some ((0, 0), (20000, 0), (1, 1), (1, 1)) := by
  refine ⟨by decide, by decide, by decide, by decide, by decide⟩

/-- Pointwise update of a rational-valued table, modelling `arr[i] = v`. -/
def setQ (f : ℤ → ℚ) (i : ℤ) (v : ℚ) : ℤ → ℚ :=
  fun j => if j = i then v else f j

/-- The scan state of `match_wave_plane_nirspec`: the four extent
tables (indexed by the 0-based slice number `islice`) and the counter
`ii` of points within the wavelength region of interest. -/
structure NirState where
  c1min : ℤ → ℚ
  c2min : ℤ → ℚ
  c1max : ℤ → ℚ
  c2max : ℤ → ℚ
  ii : ℤ

/-- The table initialisation of `match_wave_plane_nirspec`
(cube_dq_utils.c lines 412-423). -/
def nirInitState : NirState :=
  ⟨fun _ => 10000, fun _ => 10000, fun _ => -10000, fun _ => -10000, 0⟩

/-- A point falls on the wavelength plane: its wavelength is within the
region-of-interest half-width (cube_dq_utils.c line 433). -/
def NirQual (wp roiw : ℚ) (p : Point) : Prop :=
  qabs (qsub wp p.wave) < roiw

instance (wp roiw : ℚ) (p : Point) : Decidable (NirQual wp roiw p) := by
  unfold NirQual
  infer_instance

/-- The loop body of `match_wave_plane_nirspec` (cube_dq_utils.c lines
425-455), with `islice = (int)slice - 1`. -/
def nirStep (wp roiw : ℚ) (st : NirState) (p : Point) : NirState :=
  if NirQual wp roiw p then
    let islice := p.slice - 1
    let st1 := if p.c1 < st.c1min islice then
        { st with c1min := setQ st.c1min islice p.c1 } else st
    let st2 := if p.c2 < st1.c2min islice then
        { st1 with c2min := setQ st1.c2min islice p.c2 } else st1
    let st3 := if p.c1 > st2.c1max islice then
        { st2 with c1max := setQ st2.c1max islice p.c1 } else st2
    let st4 := if p.c2 > st3.c2max islice then
        { st3 with c2max := setQ st3.c2max islice p.c2 } else st3
    { st4 with ii := st4.ii + 1 }
  else st

/-- Embedding of the scan of `match_wave_plane_nirspec`
(cube_dq_utils.c lines 357-470); the returned state carries the four
extent tables and `ii`, the function's return value. -/
def matchWavePlaneNirspec (wp roiw : ℚ) (pts : List Point) : NirState :=
  pts.foldl (nirStep wp roiw) nirInitState

/-- The post-scan matched-slice computation (cube_dq_utils.c lines
456-467) together with the zero initialisation of `match_slice` (line
422): slice `i` (0-based) is flagged 1 iff `ii > 0`, the four trackers
of slice `i` all moved off their sentinels, and both coordinate ranges
are non-degenerate; every other entry is 0. -/
def matchFlag (st : NirState) (i : ℤ) : ℤ :=
  if 0 ≤ i ∧ i < 30 ∧ 0 < st.ii ∧ st.c1min i ≠ 10000 ∧ st.c2min i ≠ 10000 ∧
      st.c1max i ≠ -10000 ∧ st.c2max i ≠ -10000 ∧
      st.c1min i ≠ st.c1max i ∧ st.c2min i ≠ st.c2max i then 1 else 0

theorem matchFlag_eq_one {st : NirState} {i : ℤ} (h : matchFlag st i = 1) :
    0 ≤ i ∧ i < 30 ∧ 0 < st.ii ∧ st.c1min i ≠ 10000 ∧ st.c2min i ≠ 10000 ∧
      st.c1max i ≠ -10000 ∧ st.c2max i ≠ -10000 ∧
      st.c1min i ≠ st.c1max i ∧ st.c2min i ≠ st.c2max i := by
  by_contra hc
  unfold matchFlag at h
  rw [if_neg hc] at h
  exact absurd h (by norm_num)

/-- Explicit form of one `nirStep`. -/
theorem nirStep_eq (wp roiw : ℚ) (st : NirState) (p : Point) :
    nirStep wp roiw st p =
      if NirQual wp roiw p then
        { c1min := if p.c1 < st.c1min (p.slice - 1) then
            setQ st.c1min (p.slice - 1) p.c1 else st.c1min
          c2min := if p.c2 < st.c2min (p.slice - 1) then
            setQ st.c2min (p.slice - 1) p.c2 else st.c2min
          c1max := if p.c1 > st.c1max (p.slice - 1) then
            setQ st.c1max (p.slice - 1) p.c1 else st.c1max
          c2max := if p.c2 > st.c2max (p.slice - 1) then
            setQ st.c2max (p.slice - 1) p.c2 else st.c2max
          ii := st.ii + 1 }
      else st := by
  unfold nirStep
  by_cases hq : NirQual wp roiw p
  · simp only [if_pos hq]
    by_cases h1 : p.c1 < st.c1min (p.slice - 1) <;>
      by_cases h2 : p.c2 < st.c2min (p.slice - 1) <;>
        by_cases h3 : p.c1 > st.c1max (p.slice - 1) <;>
          by_cases h4 : p.c2 > st.c2max (p.slice - 1) <;>
            simp [h1, h2, h3, h4]
  · simp [hq]

/-- Generic fold invariant, with membership of the traversed list. -/
theorem foldl_invariant {α β : Type} (step : β → α → β) (P : β → Prop) :
    ∀ (l : List α) (b : β), (∀ a ∈ l, ∀ s, P s → P (step s a)) → P b → P (l.foldl step b)
  | [], _, _, hb => hb
  | a :: l, b, hstep, hb =>
    foldl_invariant step P l (step b a)
      (fun x hx s hs => hstep x (List.mem_cons_of_mem a hx) s hs)
      (hstep a (List.mem_cons_self a l) b hb)

theorem nirStep_c1min_at (wp roiw : ℚ) (st : NirState) (p : Point) (i : ℤ) :
    (nirStep wp roiw st p).c1min i =
      if NirQual wp roiw p ∧ i = p.slice - 1 ∧ p.c1 < st.c1min i then p.c1
      else st.c1min i := by
  rw [nirStep_eq]
  by_cases hq : NirQual wp roiw p
  · by_cases hi : i = p.slice - 1
    · subst hi
      by_cases hlt : p.c1 < st.c1min (p.slice - 1) <;> simp [hq, hlt, setQ]
    · by_cases hlt : p.c1 < st.c1min (p.slice - 1) <;> simp [hq, hi, hlt, setQ]
  · simp [hq]

theorem nirStep_c2min_at (wp roiw : ℚ) (st : NirState) (p : Point) (i : ℤ) :
    (nirStep wp roiw st p).c2min i =
      if NirQual wp roiw p ∧ i = p.slice - 1 ∧ p.c2 < st.c2min i then p.c2
      else st.c2min i := by
  rw [nirStep_eq]
  by_cases hq : NirQual wp roiw p
  · by_cases hi : i = p.slice - 1
    · subst hi
      by_cases hlt : p.c2 < st.c2min (p.slice - 1) <;> simp [hq, hlt, setQ]
    · by_cases hlt : p.c2 < st.c2min (p.slice - 1) <;> simp [hq, hi, hlt, setQ]
  · simp [hq]

theorem nirStep_c1max_at (wp roiw : ℚ) (st : NirState) (p : Point) (i : ℤ) :
    (nirStep wp roiw st p).c1max i =
      if NirQual wp roiw p ∧ i = p.slice - 1 ∧ p.c1 > st.c1max i then p.c1
      else st.c1max i := by
  rw [nirStep_eq]
  by_cases hq : NirQual wp roiw p
  · by_cases hi : i = p.slice - 1
    · subst hi
      by_cases hlt : p.c1 > st.c1max (p.slice - 1) <;> simp [hq, hlt, setQ]
    · by_cases hlt : p.c1 > st.c1max (p.slice - 1) <;> simp [hq, hi, hlt, setQ]
  · simp [hq]

theorem nirStep_c2max_at (wp roiw : ℚ) (st : NirState) (p : Point) (i : ℤ) :
    (nirStep wp roiw st p).c2max i =
      if NirQual wp roiw p ∧ i = p.slice - 1 ∧ p.c2 > st.c2max i then p.c2
      else st.c2max i := by
  rw [nirStep_eq]
  by_cases hq : NirQual wp roiw p
  · by_cases hi : i = p.slice - 1
    · subst hi
      by_cases hlt : p.c2 > st.c2max (p.slice - 1) <;> simp [hq, hlt, setQ]
    · by_cases hlt : p.c2 > st.c2max (p.slice - 1) <;> simp [hq, hi, hlt, setQ]
  · simp [hq]

theorem nirStep_ii_eq (wp roiw : ℚ) (st : NirState) (p : Point) :
    (nirStep wp roiw st p).ii = if NirQual wp roiw p then st.ii + 1 else st.ii := by
  rw [nirStep_eq]
  by_cases hq : NirQual wp roiw p <;> simp [hq]

/-- Claim C5, confirmed.  For the Instrument B extent finder: (a) a slice is
marked matched only if the tracked minimum is strictly below the
tracked maximum on both coordinate axes; (b) a slice all of whose
qualifying points share one coord1 value is never matched, regardless
of coord2 spread; (c) a slice with a single qualifying point is never
matched. -/
theorem match_wave_plane_matched_nondegenerate (wp roiw : ℚ) (pts : List Point) :
    (∀ i : ℤ, matchFlag (matchWavePlaneNirspec wp roiw pts) i = 1 →
      (matchWavePlaneNirspec wp roiw pts).c1min i < (matchWavePlaneNirspec wp roiw pts).c1max i ∧
      (matchWavePlaneNirspec wp roiw pts).c2min i < (matchWavePlaneNirspec wp roiw pts).c2max i) ∧
    (∀ i : ℤ, ∀ v : ℚ, (∀ p ∈ pts, NirQual wp roiw p → p.slice = i + 1 → p.c1 = v) →
      matchFlag (matchWavePlaneNirspec wp roiw pts) i ≠ 1) ∧
    (∀ i : ℤ, ∀ p0, p0 ∈ pts → (∀ p ∈ pts, NirQual wp roiw p → p.slice = i + 1 → p = p0) →
      matchFlag (matchWavePlaneNirspec wp roiw pts) i ≠ 1) := by
  have hshare : ∀ i : ℤ, ∀ v : ℚ, (∀ p ∈ pts, NirQual wp roiw p → p.slice = i + 1 → p.c1 = v) →
      matchFlag (matchWavePlaneNirspec wp roiw pts) i ≠ 1 := by
    intro i v hv hflag
    obtain ⟨_, _, _, hm1, _, hm2, _, hne, _⟩ := matchFlag_eq_one hflag
    have hinv : ((matchWavePlaneNirspec wp roiw pts).c1min i = 10000 ∨
        (matchWavePlaneNirspec wp roiw pts).c1min i = v) ∧
        ((matchWavePlaneNirspec wp roiw pts).c1max i = -10000 ∨
        (matchWavePlaneNirspec wp roiw pts).c1max i = v) := by
      apply foldl_invariant (nirStep wp roiw)
        (fun s => (s.c1min i = 10000 ∨ s.c1min i = v) ∧
          (s.c1max i = -10000 ∨ s.c1max i = v))
      · intro p hp s hs
        rw [nirStep_c1min_at, nirStep_c1max_at]
        constructor
        · by_cases hc : NirQual wp roiw p ∧ i = p.slice - 1 ∧ p.c1 < s.c1min i
          · rw [if_pos hc]
            exact Or.inr (hv p hp hc.1 (by omega))
          · rw [if_neg hc]
            exact hs.1
        · by_cases hc : NirQual wp roiw p ∧ i = p.slice - 1 ∧ p.c1 > s.c1max i
          · rw [if_pos hc]
            exact Or.inr (hv p hp hc.1 (by omega))
          · rw [if_neg hc]
            exact hs.2
      · exact ⟨Or.inl rfl, Or.inl rfl⟩
    rcases hinv.1 with h1 | h1
    · exact hm1 h1
    · rcases hinv.2 with h2 | h2
      · exact hm2 h2
      · exact hne (h1.trans h2.symm)
  refine ⟨?_, hshare, ?_⟩
  · intro i hflag
    obtain ⟨_, _, _, hm1, hm2, hm3, hm4, hne1, hne2⟩ := matchFlag_eq_one hflag
    have h1 : (matchWavePlaneNirspec wp roiw pts).c1min i = 10000 ∨
        (matchWavePlaneNirspec wp roiw pts).c1max i = -10000 ∨
        (matchWavePlaneNirspec wp roiw pts).c1min i ≤
          (matchWavePlaneNirspec wp roiw pts).c1max i := by
      apply foldl_invariant (nirStep wp roiw)
        (fun s => s.c1min i = 10000 ∨ s.c1max i = -10000 ∨ s.c1min i ≤ s.c1max i)
      · intro p hp s hs
        rw [nirStep_c1min_at, nirStep_c1max_at]
        by_cases hc1 : NirQual wp roiw p ∧ i = p.slice - 1 ∧ p.c1 < s.c1min i
        · rw [if_pos hc1]
          by_cases hc2 : NirQual wp roiw p ∧ i = p.slice - 1 ∧ p.c1 > s.c1max i
          · rw [if_pos hc2]
            exact Or.inr (Or.inr (le_refl _))
          · rw [if_neg hc2]
            have hle : p.c1 ≤ s.c1max i := by
              by_contra hgt
              exact hc2 ⟨hc1.1, hc1.2.1, not_le.mp hgt⟩
            exact Or.inr (Or.inr hle)
        · rw [if_neg hc1]
          by_cases hc2 : NirQual wp roiw p ∧ i = p.slice - 1 ∧ p.c1 > s.c1max i
          · rw [if_pos hc2]
            have hle : s.c1min i ≤ p.c1 := by
              by_contra hlt
              exact hc1 ⟨hc2.1, hc2.2.1, not_le.mp hlt⟩
            exact Or.inr (Or.inr hle)
          · rw [if_neg hc2]
            exact hs
      · exact Or.inl rfl
    have h2 : (matchWavePlaneNirspec wp roiw pts).c2min i = 10000 ∨
        (matchWavePlaneNirspec wp roiw pts).c2max i = -10000 ∨
        (matchWavePlaneNirspec wp roiw pts).c2min i ≤
          (matchWavePlaneNirspec wp roiw pts).c2max i := by
      apply foldl_invariant (nirStep wp roiw)
        (fun s => s.c2min i = 10000 ∨ s.c2max i = -10000 ∨ s.c2min i ≤ s.c2max i)
      · intro p hp s hs
        rw [nirStep_c2min_at, nirStep_c2max_at]
        by_cases hc1 : NirQual wp roiw p ∧ i = p.slice - 1 ∧ p.c2 < s.c2min i
        · rw [if_pos hc1]
          by_cases hc2 : NirQual wp roiw p ∧ i = p.slice - 1 ∧ p.c2 > s.c2max i
          · rw [if_pos hc2]
            exact Or.inr (Or.inr (le_refl _))
          · rw [if_neg hc2]
            have hle : p.c2 ≤ s.c2max i := by
              by_contra hgt
              exact hc2 ⟨hc1.1, hc1.2.1, not_le.mp hgt⟩
            exact Or.inr (Or.inr hle)
        · rw [if_neg hc1]
          by_cases hc2 : NirQual wp roiw p ∧ i = p.slice - 1 ∧ p.c2 > s.c2max i
          · rw [if_pos hc2]
            have hle : s.c2min i ≤ p.c2 := by
              by_contra hlt
              exact hc1 ⟨hc2.1, hc2.2.1, not_le.mp hlt⟩
            exact Or.inr (Or.inr hle)
          · rw [if_neg hc2]
            exact hs
      · exact Or.inl rfl
    constructor
    · rcases h1 with h | h | h
      · exact absurd h hm1
      · exact absurd h hm3
      · exact lt_of_le_of_ne h hne1
    · rcases h2 with h | h | h
      · exact absurd h hm2
      · exact absurd h hm4
      · exact lt_of_le_of_ne h hne2
  · intro i p0 hp0 huniq
    exact hshare i p0.c1 (fun p hm hq hs => by rw [huniq p hm hq hs])

/-- Concrete point cloud for the C5 witness. -/
def ptsC5 : List Point :=
  [⟨0, 0, 0, 1⟩, ⟨1, 3, 0, 1⟩, ⟨4, 4, 0, 2⟩]

set_option maxRecDepth 8000 in
/-- Closed instance of the C5 theorem: slice 1 has qualifying points
(0,0) and (1,3) and is matched with strictly ordered extents; slice 2
has a single qualifying point and is not matched. -/
theorem match_wave_plane_matched_nondegenerate_witness :
    ((matchWavePlaneNirspec 0 1 ptsC5).c1min 0 < (matchWavePlaneNirspec 0 1 ptsC5).c1max 0 ∧
     (matchWavePlaneNirspec 0 1 ptsC5).c2min 0 < (matchWavePlaneNirspec 0 1 ptsC5).c2max 0) ∧
    matchFlag (matchWavePlaneNirspec 0 1 ptsC5) 1 ≠ 1 :=
  ⟨(match_wave_plane_matched_nondegenerate 0 1 ptsC5).1 0 (by decide),
   (match_wave_plane_matched_nondegenerate 0 1 ptsC5).2.2 1 ⟨4, 4, 0, 2⟩ (by decide)
     (by decide)⟩

theorem trackMin_not_at_high {pts : List Point} {Q : Point → Prop} {f : Point → ℚ}
    {t : Track} (inv : TrackMinInv pts Q f pts.length t)
    {j : ℕ} {p : Point} (hp : pts[j]? = some p) (hv : 10000 ≤ f p) :
    t.imin ≠ (j : ℤ) := by
  intro he
  have hne : t.imin ≠ -1 := by omega
  obtain ⟨j2, _, q, hq, _, hj2i, hfq, hlt⟩ := inv.2.2.1 hne
  have hj2 : j2 = j := by omega
  subst hj2
  rw [hp] at hq
  obtain rfl := Option.some.inj hq
  rw [hfq] at hv
  exact absurd hv (not_le.mpr hlt)

theorem trackMax_not_at_low {pts : List Point} {Q : Point → Prop} {f : Point → ℚ}
    {t : Track} (inv : TrackMaxInv pts Q f pts.length t)
    {j : ℕ} {p : Point} (hp : pts[j]? = some p) (hv : f p ≤ -10000) :
    t.imax ≠ (j : ℤ) := by
  intro he
  have hne : t.imax ≠ -1 := by omega
  obtain ⟨j2, _, q, hq, _, hj2i, hfq, hlt⟩ := inv.2.2.1 hne
  have hj2 : j2 = j := by omega
  subst hj2
  rw [hp] at hq
  obtain rfl := Option.some.inj hq
  rw [hfq] at hv
  exact absurd hv (not_le.mpr hlt)

/-- Claim C10, amended.  The min trackers only record values strictly below
10000 and the max trackers only values strictly above -10000.  Hence:
in `corner_wave_plane_miri` a qualifying point with a coordinate at or
above 10000 is never recorded as that coordinate's minimum extremum,
and one at or below -10000 never as its maximum extremum; and in
`match_wave_plane_nirspec` a slice all of whose qualifying points lie
at or above 10000, or all at or below -10000, on either coordinate
axis, is never marked matched. -/
theorem trackers_sentinel_directional :
    (∀ (zcw roiw : ℚ) (sr er : ℤ) (pts : List Point) (j : ℕ) (p : Point),
      pts[j]? = some p → QualPt zcw roiw sr p ∨ QualPt zcw roiw er p →
      (10000 ≤ p.c1 →
        (miriScan zcw roiw sr er pts).sc1.imin ≠ (j : ℤ) ∧
        (miriScan zcw roiw sr er pts).ec1.imin ≠ (j : ℤ)) ∧
      (p.c1 ≤ -10000 →
        (miriScan zcw roiw sr er pts).sc1.imax ≠ (j : ℤ) ∧
        (miriScan zcw roiw sr er pts).ec1.imax ≠ (j : ℤ)) ∧
      (10000 ≤ p.c2 →
        (miriScan zcw roiw sr er pts).sc2.imin ≠ (j : ℤ) ∧
        (miriScan zcw roiw sr er pts).ec2.imin ≠ (j : ℤ)) ∧
      (p.c2 ≤ -10000 →
        (miriScan zcw roiw sr er pts).sc2.imax ≠ (j : ℤ) ∧
        (miriScan zcw roiw sr er pts).ec2.imax ≠ (j : ℤ))) ∧
    (∀ (wp roiw : ℚ) (pts : List Point) (i : ℤ),
      ((∀ p ∈ pts, NirQual wp roiw p → p.slice = i + 1 → 10000 ≤ p.c1) ∨
       (∀ p ∈ pts, NirQual wp roiw p → p.slice = i + 1 → p.c1 ≤ -10000) ∨
       (∀ p ∈ pts, NirQual wp roiw p → p.slice = i + 1 → 10000 ≤ p.c2) ∨
       (∀ p ∈ pts, NirQual wp roiw p → p.slice = i + 1 → p.c2 ≤ -10000)) →
      matchFlag (matchWavePlaneNirspec wp roiw pts) i ≠ 1) := by
  constructor
  · intro zcw roiw sr er pts j p hp _
    have inv := miriScan_inv zcw roiw sr er pts
    exact ⟨fun hv => ⟨trackMin_not_at_high inv.1.1 hp hv,
        trackMin_not_at_high inv.2.2.1.1 hp hv⟩,
      fun hv => ⟨trackMax_not_at_low inv.1.2 hp hv,
        trackMax_not_at_low inv.2.2.1.2 hp hv⟩,
      fun hv => ⟨trackMin_not_at_high inv.2.1.1 hp hv,
        trackMin_not_at_high inv.2.2.2.1 hp hv⟩,
      fun hv => ⟨trackMax_not_at_low inv.2.1.2 hp hv,
        trackMax_not_at_low inv.2.2.2.2 hp hv⟩⟩
  · intro wp roiw pts i hcase hflag
    obtain ⟨_, _, _, hm1, hm2, hm3, hm4, _, _⟩ := matchFlag_eq_one hflag
    rcases hcase with hA | hB | hC | hD
    · apply hm1
      apply foldl_invariant (nirStep wp roiw) (fun s => s.c1min i = 10000)
      · intro p hp s hs
        rw [nirStep_c1min_at]
        by_cases hc : NirQual wp roiw p ∧ i = p.slice - 1 ∧ p.c1 < s.c1min i
        · exfalso
          have hge := hA p hp hc.1 (by omega)
          rw [hs] at hc
          exact absurd hc.2.2 (not_lt.mpr hge)
        · rw [if_neg hc]
          exact hs
      · rfl
    · apply hm3
      apply foldl_invariant (nirStep wp roiw) (fun s => s.c1max i = -10000)
      · intro p hp s hs
        rw [nirStep_c1max_at]
        by_cases hc : NirQual wp roiw p ∧ i = p.slice - 1 ∧ p.c1 > s.c1max i
        · exfalso
          have hle := hB p hp hc.1 (by omega)
          rw [hs] at hc
          exact absurd hc.2.2 (not_lt.mpr hle)
        · rw [if_neg hc]
          exact hs
      · rfl
    · apply hm2
      apply foldl_invariant (nirStep wp roiw) (fun s => s.c2min i = 10000)
      · intro p hp s hs
        rw [nirStep_c2min_at]
        by_cases hc : NirQual wp roiw p ∧ i = p.slice - 1 ∧ p.c2 < s.c2min i
        · exfalso
          have hge := hC p hp hc.1 (by omega)
          rw [hs] at hc
          exact absurd hc.2.2 (not_lt.mpr hge)
        · rw [if_neg hc]
          exact hs
      · rfl
    · apply hm4
      apply foldl_invariant (nirStep wp roiw) (fun s => s.c2max i = -10000)
      · intro p hp s hs
        rw [nirStep_c2max_at]
        by_cases hc : NirQual wp roiw p ∧ i = p.slice - 1 ∧ p.c2 > s.c2max i
        · exfalso
          have hle := hD p hp hc.1 (by omega)
          rw [hs] at hc
          exact absurd hc.2.2 (not_lt.mpr hle)
        · rw [if_neg hc]
          exact hs
      · rfl

/-- Closed instance of the C10 amended theorem: a single qualifying
slice-1 point with coord1 = 20000 is never the recorded coord1
minimum, and its slice is never matched by the Instrument B finder. -/
theorem trackers_sentinel_directional_witness :
    (miriScan 0 1 1 2 [⟨20000, 0, 0, 1⟩]).sc1.imin ≠ 0 ∧
    matchFlag (matchWavePlaneNirspec 0 1 [⟨20000, 0, 0, 1⟩]) 0 ≠ 1 :=
  ⟨((trackers_sentinel_directional.1 0 1 1 2 [⟨20000, 0, 0, 1⟩] 0 ⟨20000, 0, 0, 1⟩
      (by decide) (Or.inl (by decide))).1 (by decide)).1,
   trackers_sentinel_directional.2 0 1 [⟨20000, 0, 0, 1⟩] 0 (Or.inl (by decide))⟩

theorem setBuf_same (b : ℤ → ℤ) (i v : ℤ) : setBuf b i v i = v := by
  simp [setBuf]

theorem setBuf_other (b : ℤ → ℤ) {i j : ℤ} (v : ℤ) (h : j ≠ i) : setBuf b i v j = b j := by
  simp [setBuf, h]

/-- Injectivity of the flattened index `iy * naxis1 + ix` for
`ix < naxis1`. -/
theorem flat_index_inj {N a b i j : ℕ} (ha : a < N) (hb : b < N)
    (h : (i : ℤ) * (N : ℤ) + (a : ℤ) = (j : ℤ) * (N : ℤ) + (b : ℤ)) : a = b ∧ i = j := by
  have hab : (a : ℤ) = (b : ℤ) := by
    have h1 : ((a : ℤ) + (N : ℤ) * (i : ℤ)) % (N : ℤ) =
        ((b : ℤ) + (N : ℤ) * (j : ℤ)) % (N : ℤ) := by
      congr 1
      linear_combination h
    rw [Int.add_mul_emod_self_left, Int.add_mul_emod_self_left] at h1
    rw [Int.emod_eq_of_lt (by exact_mod_cast Nat.zero_le a) (by exact_mod_cast ha),
        Int.emod_eq_of_lt (by exact_mod_cast Nat.zero_le b) (by exact_mod_cast hb)] at h1
    exact h1
  have hN : (0 : ℤ) < (N : ℤ) := by
    exact_mod_cast Nat.lt_of_le_of_lt (Nat.zero_le a) ha
  have hij : (i : ℤ) = (j : ℤ) := by
    have h2 : (i : ℤ) * (N : ℤ) = (j : ℤ) * (N : ℤ) := by
      linear_combination h - hab
    exact mul_right_cancel₀ (ne_of_gt hN) h2
  exact ⟨by exact_mod_cast hab, by exact_mod_cast hij⟩

/-- The oracle type of the external geometry primitive
`sh_find_overlap` (xcenter, ycenter, xlength, ylength, xi corners, eta
corners ↦ overlap area), consumed as a trusted black box. -/
def ShOracle : Type :=
  ℚ → ℚ → ℚ → ℚ → List ℚ → List ℚ → ℚ

/-- Running minimum in the style of the corner loop of
`overlap_fov_with_spaxels`: update when the candidate compares `<`. -/
def foldMinQ (a : ℚ) (l : List ℚ) : ℚ :=
  l.foldl (fun acc c => if c < acc then c else acc) a

/-- Running maximum: update when the candidate compares `>`. -/
def foldMaxQ (a : ℚ) (l : List ℚ) : ℚ :=
  l.foldl (fun acc c => if c > acc then c else acc) a

def fovXimin (xi : List ℚ) : ℚ :=
  foldMinQ (xi.getD 0 0) [xi.getD 1 0, xi.getD 2 0, xi.getD 3 0]

def fovXimax (xi : List ℚ) : ℚ :=
  foldMaxQ (xi.getD 0 0) [xi.getD 1 0, xi.getD 2 0, xi.getD 3 0]

def fovEtamin (eta : List ℚ) : ℚ :=
  foldMinQ (eta.getD 0 0) [eta.getD 1 0, eta.getD 2 0, eta.getD 3 0]

/-- The source updates `etamax` with a `<` comparison
(cube_dq_utils.c line 318: `if (eta_corner[i] < etamax){ etamax = ... }`),
so the computed "etamax" is in fact the minimum of the four eta
corners; embedded as written. -/
def fovEtamax (eta : List ℚ) : ℚ :=
  foldMinQ (eta.getD 0 0) [eta.getD 1 0, eta.getD 2 0, eta.getD 3 0]

/-- The x-guard of `overlap_fov_with_spaxels` (cube_dq_utils.c lines
325-327): note that the source computes `(xcenters[ix] - cdelt1)/2`,
not `xcenters[ix] - cdelt1/2`; embedded as written. -/
def fovGuardX (cdelt1 : ℚ) (xc : ℕ → ℚ) (xi : List ℚ) (ix : ℕ) : Prop :=
  qdiv (qsub (xc ix) cdelt1) 2 > fovXimin xi ∧ qdiv (qadd (xc ix) cdelt1) 2 < fovXimax xi

/-- The y-guard (cube_dq_utils.c lines 330-332): the source indexes
`ycenters` with `ix`, not `iy`; embedded as written (so the guard does
not depend on `iy`). -/
def fovGuardY (cdelt2 : ℚ) (yc : ℕ → ℚ) (eta : List ℚ) (ix : ℕ) : Prop :=
  qdiv (qsub (yc ix) cdelt2) 2 > fovEtamin eta ∧ qdiv (qadd (yc ix) cdelt2) 2 < fovEtamax eta

instance (cdelt1 : ℚ) (xc : ℕ → ℚ) (xi : List ℚ) (ix : ℕ) :
    Decidable (fovGuardX cdelt1 xc xi ix) := by
  unfold fovGuardX
  infer_instance

instance (cdelt2 : ℚ) (yc : ℕ → ℚ) (eta : List ℚ) (ix : ℕ) :
    Decidable (fovGuardY cdelt2 yc eta ix) := by
  unfold fovGuardY
  infer_instance

/-- The per-cell threshold update of `overlap_fov_with_spaxels`
(cube_dq_utils.c lines 339-347): coverage = overlap area / cell area;
`> 0.05` flags, `> 0.95` upgrades to full; otherwise untouched. -/
def fovCellUpdate (op of : ℤ) (area_box area_overlap : ℚ) (old : ℤ) : ℤ :=
  let cov := qdiv area_overlap area_box
  if cov > qdiv 1 20 then (if cov > qdiv 19 20 then of else op) else old

section FovDefs

variable (op of : ℤ) (area_box cdelt1 cdelt2 : ℚ) (naxis1 naxis2 : ℕ)
variable (xc yc : ℕ → ℚ) (xi eta : List ℚ) (sh : ShOracle)

/-- The inner `iy` loop of `overlap_fov_with_spaxels` for column `ix`
(cube_dq_utils.c lines 328-349). -/
def fovRow (ix n : ℕ) (b : ℤ → ℤ) : ℤ → ℤ :=
  (List.range n).foldl
    (fun (b2 : ℤ → ℤ) (iy : ℕ) =>
      if fovGuardY cdelt2 yc eta ix then
        setBuf b2 ((iy : ℤ) * (naxis1 : ℤ) + (ix : ℤ))
          (fovCellUpdate op of area_box (sh (xc ix) (yc iy) cdelt1 cdelt2 xi eta)
            (b2 ((iy : ℤ) * (naxis1 : ℤ) + (ix : ℤ))))
      else b2) b

/-- The outer `ix` loop, iterated up to `nloop` columns. -/
def fovMain (nloop : ℕ) (buf : ℤ → ℤ) : ℤ → ℤ :=
  (List.range nloop).foldl
    (fun b1 ix =>
      if fovGuardX cdelt1 xc xi ix then
        fovRow op of area_box cdelt1 cdelt2 naxis1 xc yc xi eta sh ix naxis2 b1
      else b1) buf

end FovDefs

/-- Embedding of `overlap_fov_with_spaxels` (cube_dq_utils.c lines
252-354).  The external `sh_find_overlap` is the oracle `sh`; the cell
area is `cdelt1 * cdelt2` (line 321). -/
def overlapFovWithSpaxels (op of : ℤ) (cdelt1 cdelt2 : ℚ) (naxis1 naxis2 : ℕ)
    (xc yc : ℕ → ℚ) (xi eta : List ℚ) (sh : ShOracle) (buf : ℤ → ℤ) : ℤ → ℤ :=
  fovMain op of (qmul cdelt1 cdelt2) cdelt1 cdelt2 naxis1 naxis2 xc yc xi eta sh naxis1 buf

section FovLemmas

variable (op of : ℤ) (area_box cdelt1 cdelt2 : ℚ) (naxis1 naxis2 : ℕ)
variable (xc yc : ℕ → ℚ) (xi eta : List ℚ) (sh : ShOracle)

theorem fovRow_succ (ix m : ℕ) (b : ℤ → ℤ) :
    fovRow op of area_box cdelt1 cdelt2 naxis1 xc yc xi eta sh ix (m + 1) b =
      if fovGuardY cdelt2 yc eta ix then
        setBuf (fovRow op of area_box cdelt1 cdelt2 naxis1 xc yc xi eta sh ix m b)
          ((m : ℤ) * (naxis1 : ℤ) + (ix : ℤ))
          (fovCellUpdate op of area_box (sh (xc ix) (yc m) cdelt1 cdelt2 xi eta)
            (fovRow op of area_box cdelt1 cdelt2 naxis1 xc yc xi eta sh ix m b
              ((m : ℤ) * (naxis1 : ℤ) + (ix : ℤ))))
      else fovRow op of area_box cdelt1 cdelt2 naxis1 xc yc xi eta sh ix m b := by
  unfold fovRow
  rw [List.range_succ, List.foldl_append, List.foldl_cons, List.foldl_nil]

theorem fovRow_untouched (ix : ℕ) :
    ∀ (n : ℕ) (b : ℤ → ℤ) (idx : ℤ),
      (∀ iy' : ℕ, iy' < n → ((iy' : ℤ) * (naxis1 : ℤ) + (ix : ℤ)) ≠ idx) →
      fovRow op of area_box cdelt1 cdelt2 naxis1 xc yc xi eta sh ix n b idx = b idx := by
  intro n
  induction n with
  | zero => intro b idx _; rfl
  | succ m ih =>
    intro b idx hne
    rw [fovRow_succ]
    by_cases hg : fovGuardY cdelt2 yc eta ix
    · rw [if_pos hg, setBuf_other _ _ (Ne.symm (hne m (Nat.lt_succ_self m)))]
      exact ih b idx (fun iy2 hiy2 => hne iy2 (Nat.lt_succ_of_lt hiy2))
    · rw [if_neg hg]
      exact ih b idx (fun iy2 hiy2 => hne iy2 (Nat.lt_succ_of_lt hiy2))

theorem fovRow_at (ix : ℕ) (hix : ix < naxis1) (hg : fovGuardY cdelt2 yc eta ix) :
    ∀ (n : ℕ) (iy : ℕ) (b : ℤ → ℤ), iy < n →
      fovRow op of area_box cdelt1 cdelt2 naxis1 xc yc xi eta sh ix n b
          ((iy : ℤ) * (naxis1 : ℤ) + (ix : ℤ)) =
        fovCellUpdate op of area_box (sh (xc ix) (yc iy) cdelt1 cdelt2 xi eta)
          (b ((iy : ℤ) * (naxis1 : ℤ) + (ix : ℤ))) := by
  intro n
  induction n with
  | zero => intro iy b h; exact absurd h (Nat.not_lt_zero iy)
  | succ m ih =>
    intro iy b hlt
    rw [fovRow_succ, if_pos hg]
    rcases Nat.lt_succ_iff_lt_or_eq.mp hlt with h | rfl
    · have hne : ((iy : ℤ) * (naxis1 : ℤ) + (ix : ℤ)) ≠
          ((m : ℤ) * (naxis1 : ℤ) + (ix : ℤ)) := by
        intro hx
        obtain ⟨-, him⟩ := flat_index_inj hix hix hx
        omega
      rw [setBuf_other _ _ hne]
      exact ih iy b h
    · have hun : fovRow op of area_box cdelt1 cdelt2 naxis1 xc yc xi eta sh ix iy b
          ((iy : ℤ) * (naxis1 : ℤ) + (ix : ℤ)) = b ((iy : ℤ) * (naxis1 : ℤ) + (ix : ℤ)) := by
        apply fovRow_untouched
        intro iy2 hiy2 hx
        obtain ⟨-, him⟩ := flat_index_inj hix hix hx
        omega
      rw [setBuf_same, hun]

theorem fovMain_succ (m : ℕ) (buf : ℤ → ℤ) :
    fovMain op of area_box cdelt1 cdelt2 naxis1 naxis2 xc yc xi eta sh (m + 1) buf =
      if fovGuardX cdelt1 xc xi m then
        fovRow op of area_box cdelt1 cdelt2 naxis1 xc yc xi eta sh m naxis2
          (fovMain op of area_box cdelt1 cdelt2 naxis1 naxis2 xc yc xi eta sh m buf)
      else fovMain op of area_box cdelt1 cdelt2 naxis1 naxis2 xc yc xi eta sh m buf := by
  unfold fovMain
  rw [List.range_succ, List.foldl_append, List.foldl_cons, List.foldl_nil]

theorem fovMain_untouched (ix iy : ℕ) (hix : ix < naxis1) :
    ∀ (n : ℕ) (buf : ℤ → ℤ), n ≤ naxis1 → (∀ ix2 : ℕ, ix2 < n → ix2 ≠ ix) →
      fovMain op of area_box cdelt1 cdelt2 naxis1 naxis2 xc yc xi eta sh n buf
          ((iy : ℤ) * (naxis1 : ℤ) + (ix : ℤ)) =
        buf ((iy : ℤ) * (naxis1 : ℤ) + (ix : ℤ)) := by
  intro n
  induction n with
  | zero => intro buf _ _; rfl
  | succ m ih =>
    intro buf hle hne
    rw [fovMain_succ]
    have hm : m < naxis1 := Nat.lt_of_lt_of_le (Nat.lt_succ_self m) hle
    have hrest := ih buf (Nat.le_of_succ_le hle)
      (fun ix2 hix2 => hne ix2 (Nat.lt_succ_of_lt hix2))
    by_cases hgm : fovGuardX cdelt1 xc xi m
    · rw [if_pos hgm]
      rw [fovRow_untouched op of area_box cdelt1 cdelt2 naxis1 xc yc xi eta sh m naxis2 _ _
        (fun iy2 hiy2 hx => by
          obtain ⟨hmx, -⟩ := flat_index_inj hm hix hx
          exact hne m (Nat.lt_succ_self m) hmx)]
      exact hrest
    · rw [if_neg hgm]
      exact hrest

/-- Value of the polygon rasterizer at a considered cell: for
`ix < naxis1`, `iy < naxis2` whose x- and y-guards hold, the output at
flattened index `iy*naxis1+ix` is the thresholded update of the input
buffer entry. -/
theorem overlapFov_at_considered (buf : ℤ → ℤ) (ix iy : ℕ)
    (hix : ix < naxis1) (hiy : iy < naxis2)
    (hgx : fovGuardX cdelt1 xc xi ix) (hgy : fovGuardY cdelt2 yc eta ix) :
    overlapFovWithSpaxels op of cdelt1 cdelt2 naxis1 naxis2 xc yc xi eta sh buf
        ((iy : ℤ) * (naxis1 : ℤ) + (ix : ℤ)) =
      fovCellUpdate op of (qmul cdelt1 cdelt2) (sh (xc ix) (yc iy) cdelt1 cdelt2 xi eta)
        (buf ((iy : ℤ) * (naxis1 : ℤ) + (ix : ℤ))) := by
  unfold overlapFovWithSpaxels
  have main : ∀ (n : ℕ), n ≤ naxis1 → ix < n → ∀ b : ℤ → ℤ,
      fovMain op of (qmul cdelt1 cdelt2) cdelt1 cdelt2 naxis1 naxis2 xc yc xi eta sh n b
          ((iy : ℤ) * (naxis1 : ℤ) + (ix : ℤ)) =
        fovCellUpdate op of (qmul cdelt1 cdelt2) (sh (xc ix) (yc iy) cdelt1 cdelt2 xi eta)
          (b ((iy : ℤ) * (naxis1 : ℤ) + (ix : ℤ))) := by
    intro n
    induction n with
    | zero => intro _ h; exact absurd h (Nat.not_lt_zero ix)
    | succ m ih =>
      intro hle hlt b
      rw [fovMain_succ]
      have hm : m < naxis1 := Nat.lt_of_lt_of_le (Nat.lt_succ_self m) hle
      rcases Nat.lt_succ_iff_lt_or_eq.mp hlt with h | rfl
      · by_cases hgm : fovGuardX cdelt1 xc xi m
        · rw [if_pos hgm]
          rw [fovRow_untouched op of (qmul cdelt1 cdelt2) cdelt1 cdelt2 naxis1 xc yc xi eta
            sh m naxis2 _ _
            (fun iy2 hiy2 hx => by
              obtain ⟨hmx, -⟩ := flat_index_inj hm hix hx
              omega)]
          exact ih (Nat.le_of_succ_le hle) h b
        · rw [if_neg hgm]
          exact ih (Nat.le_of_succ_le hle) h b
      · rw [if_pos hgx]
        rw [fovRow_at op of (qmul cdelt1 cdelt2) cdelt1 cdelt2 naxis1 xc yc xi eta sh ix hix
          hgy naxis2 iy _ hiy]
        rw [fovMain_untouched op of (qmul cdelt1 cdelt2) cdelt1 cdelt2 naxis1 naxis2 xc yc
          xi eta sh ix iy hix ix b (Nat.le_of_succ_le hle) (fun ix2 hix2 => by omega)]
  exact main naxis1 (le_refl naxis1) hix buf

end FovLemmas

/-- The claim's notion of the FOV bounding box and half-extent-box
test, following the spec's words: componentwise min/max over the four
corners on both axes; cell box = center minus/plus half the sampling
step; strict insideness.  Used to exhibit the divergence between the
claim and the code. -/
def specCellStrictlyInside (cdelt1 cdelt2 cx cy : ℚ) (xi eta : List ℚ) : Prop :=
  min (min (xi.getD 0 0) (xi.getD 1 0)) (min (xi.getD 2 0) (xi.getD 3 0)) < cx - cdelt1 / 2 ∧
  cx + cdelt1 / 2 < max (max (xi.getD 0 0) (xi.getD 1 0)) (max (xi.getD 2 0) (xi.getD 3 0)) ∧
  min (min (eta.getD 0 0) (eta.getD 1 0)) (min (eta.getD 2 0) (eta.getD 3 0)) < cy - cdelt2 / 2 ∧
  cy + cdelt2 / 2 < max (max (eta.getD 0 0) (eta.getD 1 0)) (max (eta.getD 2 0) (eta.getD 3 0))

/-- Claim C1, code bug.  Corners (0,0),(10,0),(10,10),(0,10) on a 1×1 grid
whose single cell is centered at (5,5), sampling steps 1, oracle
returning overlap area 1 (full coverage).  Per the claim, the cell's
half-extent box [4.5,5.5]×[4.5,5.5] lies strictly inside the corner
bounding box (0,10)×(0,10) and the coverage fraction 1 exceeds 0.95,
so the cell must be flagged `overlap_full` (4).  In the code the
`etamax` accumulator is updated with `<` (cube_dq_utils.c line 318), so
the computed "etamax" is the minimum eta corner (0) and the y-guard
`y2 < etamax` fails; the cell is never considered and its buffer entry
stays 0.  (Lines 325-331 also divide the whole of `center ± cdelt` by
2 and index `ycenters` by `ix`; all three quirks are embedded
verbatim.) -/
theorem overlap_fov_skips_cell_inside_true_bbox :
    specCellStrictlyInside 1 1 5 5 [0, 10, 10, 0] [0, 0, 10, 10] ∧
    (1 : ℚ) / (1 * 1) > 19 / 20 ∧
    overlapFovWithSpaxels 2 4 1 1 1 1 (fun _ => 5) (fun _ => 5) [0, 10, 10, 0]
      [0, 0, 10, 10] (fun _ _ _ _ _ _ => 1) (fun _ => 0) 0 = 0 := by
  refine ⟨?_, by norm_num, by decide⟩
  unfold specCellStrictlyInside
  norm_num [min_def, max_def]

/-- Claim C3, confirmed.  For every cell the rasterizer considers (both of
its guards hold), with fraction = oracle overlap area divided by the
cell area `cdelt1*cdelt2`: fraction ≤ 0.05 leaves the scratch entry
unchanged (hence 0 when the buffer was zeroed), 0.05 < fraction ≤ 0.95
writes `overlap_partial`, fraction > 0.95 writes `overlap_full`; both
thresholds strict. -/
theorem overlap_fov_threshold_trichotomy (op of : ℤ) (cdelt1 cdelt2 : ℚ)
    (naxis1 naxis2 : ℕ) (xc yc : ℕ → ℚ) (xi eta : List ℚ) (sh : ShOracle)
    (buf : ℤ → ℤ) (ix iy : ℕ) (hix : ix < naxis1) (hiy : iy < naxis2)
    (hgx : fovGuardX cdelt1 xc xi ix) (hgy : fovGuardY cdelt2 yc eta ix) :
    (sh (xc ix) (yc iy) cdelt1 cdelt2 xi eta / (cdelt1 * cdelt2) ≤ 1 / 20 →
      overlapFovWithSpaxels op of cdelt1 cdelt2 naxis1 naxis2 xc yc xi eta sh buf
          ((iy : ℤ) * (naxis1 : ℤ) + (ix : ℤ)) =
        buf ((iy : ℤ) * (naxis1 : ℤ) + (ix : ℤ))) ∧
    (1 / 20 < sh (xc ix) (yc iy) cdelt1 cdelt2 xi eta / (cdelt1 * cdelt2) ∧
      sh (xc ix) (yc iy) cdelt1 cdelt2 xi eta / (cdelt1 * cdelt2) ≤ 19 / 20 →
      overlapFovWithSpaxels op of cdelt1 cdelt2 naxis1 naxis2 xc yc xi eta sh buf
          ((iy : ℤ) * (naxis1 : ℤ) + (ix : ℤ)) = op) ∧
    (19 / 20 < sh (xc ix) (yc iy) cdelt1 cdelt2 xi eta / (cdelt1 * cdelt2) →
      overlapFovWithSpaxels op of cdelt1 cdelt2 naxis1 naxis2 xc yc xi eta sh buf
          ((iy : ℤ) * (naxis1 : ℤ) + (ix : ℤ)) = of) := by
  rw [overlapFov_at_considered op of cdelt1 cdelt2 naxis1 naxis2 xc yc xi eta sh buf ix iy
    hix hiy hgx hgy]
  unfold fovCellUpdate
  rw [qdiv_eq, qmul_eq, qdiv_eq, qdiv_eq]
  have h120 : ((1 : ℚ) / 20 : ℚ) < 19 / 20 := by norm_num
  refine ⟨?_, ?_, ?_⟩
  · intro hle
    rw [if_neg (not_lt.mpr hle)]
  · rintro ⟨hlo, hhi⟩
    rw [if_pos hlo, if_neg (not_lt.mpr hhi)]
  · intro hgt
    rw [if_pos (lt_trans h120 hgt), if_pos hgt]

/-- Closed instance of the C3 theorem.  With `cdelt2 = -1` the y-guard
of the source can hold (its "etamax" is the min of the eta corners),
so the cell (0,0) is considered; oracle area -1/2 over cell area -1
gives fraction 1/2, in the partial band, and the cell is flagged
`overlap_partial` (2). -/
theorem overlap_fov_threshold_trichotomy_witness :
    overlapFovWithSpaxels 2 4 1 (-1) 1 1 (fun _ => 5) (fun _ => 0) [0, 10, 10, 0]
      [0, 0, 0, 0] (fun _ _ _ _ _ _ => Rat.divInt (-1) 2) (fun _ => 0) 0 = 2 :=
  (overlap_fov_threshold_trichotomy 2 4 1 (-1) 1 1 (fun _ => 5) (fun _ => 0)
    [0, 10, 10, 0] [0, 0, 0, 0] (fun _ _ _ _ _ _ => Rat.divInt (-1) 2) (fun _ => 0)
    0 0 (by decide) (by decide) (by decide) (by decide)).2.1
    (by rw [Rat.divInt_eq_div]; norm_num)

/-- The per-plane body of `dq_miri` (cube_dq_utils.c lines 669-708):
zero the scratch buffer, run the corner finder, rasterize on success,
then copy the scratch buffer (or zeros on failure) into the plane's
region `[w*nx*ny, (w+1)*nx*ny)` of the output array. -/
def miriPlaneWrite (sr er op of : ℤ) (nx ny : ℕ) (cdelt1 cdelt2 roiw : ℚ)
    (xc yc zc : ℕ → ℚ) (pts : List Point) (sh : ShOracle) (w : ℕ)
    (idqv : ℤ → ℤ) : ℤ → ℤ :=
  let nxy : ℤ := (nx : ℤ) * (ny : ℤ)
  fun n =>
    match cornerWavePlaneMiri w sr er roiw zc pts with
    | some (k1, k2, k3, k4) =>
      if (w : ℤ) * nxy ≤ n ∧ n < (w : ℤ) * nxy + nxy then
        overlapFovWithSpaxels op of cdelt1 cdelt2 nx ny xc yc
          [k1.1, k2.1, k3.1, k4.1] [k1.2, k2.2, k3.2, k4.2] sh (fun _ => 0)
          (n - (w : ℤ) * nxy)
      else idqv n
    | none =>
      if (w : ℤ) * nxy ≤ n ∧ n < (w : ℤ) * nxy + nxy then 0 else idqv n

/-- The plane loop of `dq_miri` (the fold over `w = 0..nz-1`), starting
from the zero-initialised cube array. -/
def dqMiriRun (sr er op of : ℤ) (nx ny nz : ℕ) (cdelt1 cdelt2 roiw : ℚ)
    (xc yc zc : ℕ → ℚ) (pts : List Point) (sh : ShOracle) : ℤ → ℤ :=
  (List.range nz).foldl
    (fun g w => miriPlaneWrite sr er op of nx ny cdelt1 cdelt2 roiw xc yc zc pts sh w g)
    (fun _ => 0)

/-- Embedding of `dq_miri` (cube_dq_utils.c lines 610-714).  `alloc k`
is the outcome of the k-th `mem_alloc_dq` call (k = 0: the cube array
`idqv`, line 653; k = 1: the per-plane scratch `wave_slice_dq`, line
666); on either failure the function returns status 1 without writing
the output pointer, modelled `none`; `some` is status 0 with the
output array. -/
def dqMiri (alloc : ℕ → Bool) (sr er op of : ℤ) (nx ny nz : ℕ)
    (cdelt1 cdelt2 roiw : ℚ) (xc yc zc : ℕ → ℚ) (pts : List Point) (sh : ShOracle) :
    Option (ℤ → ℤ) :=
  if alloc 0 then
    if alloc 1 then
      some (dqMiriRun sr er op of nx ny nz cdelt1 cdelt2 roiw xc yc zc pts sh)
    else none
  else none

/-- The per-plane body of `dq_nirspec` (cube_dq_utils.c lines 776-839,
minus the allocation): run the extent finder, rasterize every matched
slice onto a zeroed scratch buffer, and copy the scratch buffer into
the plane's region when `imatch > 0` and some slice matched; otherwise
the output array is left untouched on this plane. -/
def nirPlaneWrite (op : ℤ) (nx ny : ℕ) (cdelt1 cdelt2 roiw : ℚ) (xc yc zc : ℕ → ℚ)
    (pts : List Point) (w : ℕ) (idqv : ℤ → ℤ) : ℤ → ℤ :=
  let nxy : ℤ := (nx : ℤ) * (ny : ℤ)
  let st := matchWavePlaneNirspec (zc w) roiw pts
  let buf := (List.range 30).foldl
    (fun (b : ℤ → ℤ) (islice : ℕ) =>
      if matchFlag st (islice : ℤ) = 1 then
        overlapSliceWithSpaxels op cdelt1 cdelt2 nx ny (xc 0) (yc 0)
          (st.c1min (islice : ℤ)) (st.c2min (islice : ℤ))
          (st.c1max (islice : ℤ)) (st.c2max (islice : ℤ)) b
      else b)
    (fun _ => 0)
  let sliceFound := (List.range 30).any (fun islice => decide (matchFlag st (islice : ℤ) = 1))
  fun n =>
    if 0 < st.ii ∧ sliceFound = true then
      if (w : ℤ) * nxy ≤ n ∧ n < (w : ℤ) * nxy + nxy then buf (n - (w : ℤ) * nxy)
      else idqv n
    else idqv n

/-- The plane loop of `dq_nirspec` with its per-plane checked
allocation (cube_dq_utils.c line 795); `none` models the status-1
return when plane w's `mem_alloc_dq` (outcome `alloc (w+1)`) fails. -/
def dqNirspecLoop (alloc : ℕ → Bool) (op : ℤ) (nx ny : ℕ) (cdelt1 cdelt2 roiw : ℚ)
    (xc yc zc : ℕ → ℚ) (pts : List Point) : List ℕ → (ℤ → ℤ) → Option (ℤ → ℤ)
  | [], idqv => some idqv
  | w :: ws, idqv =>
    if alloc (w + 1) then
      dqNirspecLoop alloc op nx ny cdelt1 cdelt2 roiw xc yc zc pts ws
        (nirPlaneWrite op nx ny cdelt1 cdelt2 roiw xc yc zc pts w idqv)
    else none

/-- Result of `dq_nirspec`: `crash` models the undefined behaviour
(write through a NULL pointer) that follows when the unchecked `calloc`
of the cube array at cube_dq_utils.c line 768 fails; `allocFail` a
status-1 return; `ok` status 0 with the output array. -/
inductive DqNirspecResult : Type
  | crash : DqNirspecResult
  | allocFail : DqNirspecResult
  | ok : (ℤ → ℤ) → DqNirspecResult

/-- Embedding of `dq_nirspec` (cube_dq_utils.c lines 717-844).
`alloc 0` is the outcome of the initial unchecked `calloc` (line 768):
the C code never tests it and immediately writes `idqv[i] = 0` through
the pointer, so failure is a crash, not a status-1 return.  The
per-plane checked allocations are `alloc (w+1)`. -/
def dqNirspec (alloc : ℕ → Bool) (op : ℤ) (nx ny nz : ℕ) (cdelt1 cdelt2 roiw : ℚ)
    (xc yc zc : ℕ → ℚ) (pts : List Point) : DqNirspecResult :=
  if alloc 0 then
    match dqNirspecLoop alloc op nx ny cdelt1 cdelt2 roiw xc yc zc pts (List.range nz)
        (fun _ => 0) with
    | some g => DqNirspecResult.ok g
    | none => DqNirspecResult.allocFail
  else DqNirspecResult.crash

/-- The convenience projection used by the C6 witness: the array the
successful `dq_nirspec` run returns. -/
def dqNirspecRunD (alloc : ℕ → Bool) (op : ℤ) (nx ny nz : ℕ) (cdelt1 cdelt2 roiw : ℚ)
    (xc yc zc : ℕ → ℚ) (pts : List Point) : ℤ → ℤ :=
  (dqNirspecLoop alloc op nx ny cdelt1 cdelt2 roiw xc yc zc pts (List.range nz)
    (fun _ => 0)).getD (fun _ => 0)

/-- Regions of distinct planes are disjoint (with `M = nx*ny ≥ 0`). -/
theorem region_disjoint {M : ℤ} (hM : 0 ≤ M) {w w2 : ℕ} {n : ℤ}
    (h1 : (w : ℤ) * M ≤ n) (h2 : n < (w : ℤ) * M + M) (hne : w2 ≠ w) :
    ¬ ((w2 : ℤ) * M ≤ n ∧ n < (w2 : ℤ) * M + M) := by
  rintro ⟨g1, g2⟩
  rcases Nat.lt_or_ge w2 w with hlt | hge
  · have hc : (w2 : ℤ) + 1 ≤ (w : ℤ) := by exact_mod_cast hlt
    have hmul : ((w2 : ℤ) + 1) * M ≤ (w : ℤ) * M := mul_le_mul_of_nonneg_right hc hM
    nlinarith
  · have hgt : w < w2 := by omega
    have hc : (w : ℤ) + 1 ≤ (w2 : ℤ) := by exact_mod_cast hgt
    have hmul : ((w : ℤ) + 1) * M ≤ (w2 : ℤ) * M := mul_le_mul_of_nonneg_right hc hM
    nlinarith

theorem corner_none_of_no_qual {w : ℕ} {sr er : ℤ} {roiw : ℚ} {zc : ℕ → ℚ}
    {pts : List Point}
    (hno : ¬ ∃ p ∈ pts, QualPt (zc w) roiw sr p ∨ QualPt (zc w) roiw er p) :
    cornerWavePlaneMiri w sr er roiw zc pts = none := by
  have inv := miriScan_inv (zc w) roiw sr er pts
  have hval : ∀ p ∈ pts, MiriQual (zc w) roiw sr p → p.c1 < 10000 :=
    fun p hm hq => absurd ⟨p, hm, Or.inl hq.1⟩ hno
  apply (corner_none_iff_cond w sr er roiw zc pts).mpr
  left
  apply (trackMin_unset_iff inv.1.1 hval).mpr
  rintro ⟨p, hm, hq⟩
  exact hno ⟨p, hm, Or.inl hq.1⟩

theorem nir_ii_zero_of_no_qual {wp roiw : ℚ} {pts : List Point}
    (hno : ¬ ∃ p ∈ pts, NirQual wp roiw p) :
    (matchWavePlaneNirspec wp roiw pts).ii = 0 := by
  apply foldl_invariant (nirStep wp roiw) (fun s => s.ii = 0)
  · intro p hp s hs
    rw [nirStep_ii_eq, if_neg (fun hq => hno ⟨p, hp, hq⟩)]
    exact hs
  · rfl

/-- Claim C6, confirmed.  For a wavelength plane `w` with no qualifying
points (for `dq_miri`: no point within the wavelength region of
interest on either extreme slice; for `dq_nirspec`: no point within
the region of interest at all), a successful run of the orchestrator
leaves the output region `[w*nx*ny, (w+1)*nx*ny)` entirely zero. -/
theorem dq_plane_without_points_all_zero :
    (∀ (alloc : ℕ → Bool) (sr er op of : ℤ) (nx ny nz : ℕ) (cdelt1 cdelt2 roiw : ℚ)
      (xc yc zc : ℕ → ℚ) (pts : List Point) (sh : ShOracle) (w : ℕ) (g : ℤ → ℤ) (n : ℤ),
      w < nz →
      (¬ ∃ p ∈ pts, QualPt (zc w) roiw sr p ∨ QualPt (zc w) roiw er p) →
      dqMiri alloc sr er op of nx ny nz cdelt1 cdelt2 roiw xc yc zc pts sh = some g →
      (w : ℤ) * ((nx : ℤ) * (ny : ℤ)) ≤ n →
      n < (w : ℤ) * ((nx : ℤ) * (ny : ℤ)) + (nx : ℤ) * (ny : ℤ) →
      g n = 0) ∧
    (∀ (alloc : ℕ → Bool) (op : ℤ) (nx ny nz : ℕ) (cdelt1 cdelt2 roiw : ℚ)
      (xc yc zc : ℕ → ℚ) (pts : List Point) (w : ℕ) (g : ℤ → ℤ) (n : ℤ),
      w < nz →
      (¬ ∃ p ∈ pts, NirQual (zc w) roiw p) →
      dqNirspec alloc op nx ny nz cdelt1 cdelt2 roiw xc yc zc pts = DqNirspecResult.ok g →
      (w : ℤ) * ((nx : ℤ) * (ny : ℤ)) ≤ n →
      n < (w : ℤ) * ((nx : ℤ) * (ny : ℤ)) + (nx : ℤ) * (ny : ℤ) →
      g n = 0) := by
  constructor
  · intro alloc sr er op of nx ny nz cdelt1 cdelt2 roiw xc yc zc pts sh w g n hwnz hno
      hsome h1 h2
    have hg : dqMiriRun sr er op of nx ny nz cdelt1 cdelt2 roiw xc yc zc pts sh = g := by
      unfold dqMiri at hsome
      cases ha0 : alloc 0 <;> simp [ha0] at hsome
      cases ha1 : alloc 1 <;> simp [ha1] at hsome
      exact hsome
    rw [← hg]
    unfold dqMiriRun
    have hstep : ∀ w2 ∈ List.range nz, ∀ b : ℤ → ℤ, b n = 0 →
        miriPlaneWrite sr er op of nx ny cdelt1 cdelt2 roiw xc yc zc pts sh w2 b n = 0 := by
      intro w2 hw2 b hP
      by_cases hww : w2 = w
      · subst hww
        simp only [miriPlaneWrite, corner_none_of_no_qual hno]
        rw [if_pos ⟨h1, h2⟩]
      · have hnr := region_disjoint (by positivity) h1 h2 hww
        cases hc : cornerWavePlaneMiri w2 sr er roiw zc pts with
        | none =>
          simp only [miriPlaneWrite, hc]
          rw [if_neg hnr]
          exact hP
        | some ks =>
          obtain ⟨k1, k2, k3, k4⟩ := ks
          simp only [miriPlaneWrite, hc]
          rw [if_neg hnr]
          exact hP
    exact foldl_invariant _ (fun h : ℤ → ℤ => h n = 0) (List.range nz) (fun _ => 0)
      hstep rfl
  · intro alloc op nx ny nz cdelt1 cdelt2 roiw xc yc zc pts w g n hwnz hno hok h1 h2
    unfold dqNirspec at hok
    cases ha0 : alloc 0 <;> simp [ha0] at hok
    cases hl : dqNirspecLoop alloc op nx ny cdelt1 cdelt2 roiw xc yc zc pts
        (List.range nz) (fun _ => 0) with
    | none =>
      rw [hl] at hok
      simp at hok
    | some g2 =>
      rw [hl] at hok
      simp at hok
      subst hok
      have main : ∀ (l : List ℕ) (h0 g3 : ℤ → ℤ),
          (∀ w2 ∈ l, ∀ hbuf : ℤ → ℤ, hbuf n = 0 →
            nirPlaneWrite op nx ny cdelt1 cdelt2 roiw xc yc zc pts w2 hbuf n = 0) →
          h0 n = 0 →
          dqNirspecLoop alloc op nx ny cdelt1 cdelt2 roiw xc yc zc pts l h0 = some g3 →
          g3 n = 0 := by
        intro l
        induction l with
        | nil =>
          intro h0 g3 _ hz hl2
          unfold dqNirspecLoop at hl2
          obtain rfl := Option.some.inj hl2
          exact hz
        | cons w2 ws ih =>
          intro h0 g3 hpres hz hl2
          unfold dqNirspecLoop at hl2
          by_cases ha : alloc (w2 + 1) = true
          · rw [if_pos ha] at hl2
            exact ih _ g3 (fun w3 hw3 => hpres w3 (List.mem_cons_of_mem _ hw3))
              (hpres w2 (List.mem_cons_self _ _) h0 hz) hl2
          · rw [if_neg ha] at hl2
            exact absurd hl2 (by simp)
      apply main (List.range nz) _ g2 ?_ rfl hl
      intro w2 hw2 hbuf hz
      by_cases hww : w2 = w
      · subst hww
        have hii := nir_ii_zero_of_no_qual hno
        simp only [nirPlaneWrite]
        split_ifs with hc hr
        · rw [hii] at hc
          exact absurd hc.1 (lt_irrefl 0)
        · rw [hii] at hc
          exact absurd hc.1 (lt_irrefl 0)
        · exact hz
      · have hnr := region_disjoint (by positivity) h1 h2 hww
        simp only [nirPlaneWrite]
        split_ifs with hc
        · exact hz
        · exact hz

/-- Closed instance of the C6 theorem, on a 1×1×1 cube with an empty
point cloud. -/
theorem dq_plane_without_points_all_zero_witness :
    dqMiriRun 1 2 2 4 1 1 1 1 1 1 (fun _ => 0) (fun _ => 0) (fun _ => 0) []
      (fun _ _ _ _ _ _ => 0) 0 = 0 ∧
    dqNirspecRunD (fun _ => true) 2 1 1 1 1 1 1 (fun _ => 0) (fun _ => 0) (fun _ => 0) []
      0 = 0 := by
  constructor
  · exact dq_plane_without_points_all_zero.1 (fun _ => true) 1 2 2 4 1 1 1 1 1 1
      (fun _ => 0) (fun _ => 0) (fun _ => 0) [] (fun _ _ _ _ _ _ => 0) 0
      (dqMiriRun 1 2 2 4 1 1 1 1 1 1 (fun _ => 0) (fun _ => 0) (fun _ => 0) []
        (fun _ _ _ _ _ _ => 0)) 0
      (by decide) (by decide) rfl (by decide) (by decide)
  · exact dq_plane_without_points_all_zero.2 (fun _ => true) 2 1 1 1 1 1 1
      (fun _ => 0) (fun _ => 0) (fun _ => 0) [] 0
      (dqNirspecRunD (fun _ => true) 2 1 1 1 1 1 1 (fun _ => 0) (fun _ => 0) (fun _ => 0) [])
      0 (by decide) (by decide) rfl (by decide) (by decide)

/-- Claim C7, code bug.  The claim (and the spec, and `dq_nirspec`'s own
doc-comment) say status 1 is returned exactly when an allocation
fails.  `dq_miri` checks both of its allocations (modelled: `none`
whenever one fails).  But `dq_nirspec` allocates its cube array with a
bare `calloc` (cube_dq_utils.c line 768) that is never checked and is
immediately written through, so when that allocation fails the function
crashes (undefined behaviour) instead of returning status 1: with an
always-failing allocator it reaches the modelled `crash` state, while
`dq_miri` on the same allocator correctly returns the status-1
`none`. -/
theorem dq_nirspec_crashes_on_failed_cube_alloc :
    dqNirspec (fun _ => false) 2 1 1 1 1 1 1 (fun _ => 0) (fun _ => 0) (fun _ => 0) []
      = DqNirspecResult.crash ∧
    dqMiri (fun _ => false) 1 2 2 4 1 1 1 1 1 1 (fun _ => 0) (fun _ => 0) (fun _ => 0) []
      (fun _ _ _ _ _ _ => 0) = none := by
  exact ⟨rfl, rfl⟩

end CubeDq
